import Mathlib

/-!
A shallow embedding of `certbot/reverter.py` (the configuration-checkpoint and
recovery engine) and proofs about it.

Modelling conventions:
* Python strings (file paths, directory names, notes) are `List Char`; Python's
  string comparison is code-point lexicographic, which is the `LinearOrder`
  on `List Char`.
* File contents are byte lists (`List Nat`).
* The live filesystem and the backup copies inside a checkpoint directory are
  partial maps `List Char → Option (List Nat)`.
* A journal file (`FILEPATHS`, `NEW_FILES`, `COMMANDS`) on disk is either
  missing (`ENOENT`), unreadable (an `IOError` other than `ENOENT`), present
  but not parseable JSON, or a parsed JSON list; this mirrors the cases of
  `_read_json_file`.
* Exceptions are explicit: every operation returns its resulting state
  together with `Option Err`.  `Err.ioErr` stands for a raw `IOError`
  propagating uncaught; the other constructors stand for the distinct
  `ReverterError` raise sites of the source.
* External effects the engine only observes (running an undo command with
  `util.run_script`, `os.remove` failing, `shutil.rmtree` failing) are an
  explicit environment `Env`.
-/

namespace Reverter

/-- Python strings, as their character sequences. -/
abbrev Str := List Char

/-- File contents, byte for byte. -/
abbrev Content := List Nat

/-- A partial map used for the live filesystem and for backup copies. -/
abbrev FMap := Str → Option Content

/-- Point update of a partial map (`some v` writes, `none` deletes). -/
def mupd (m : FMap) (k : Str) (v : Option Content) : FMap :=
  fun q => if q = k then v else m q

/-- On-disk state of one JSON journal file, following the cases that
`_read_json_file` distinguishes. -/
inductive DiskFile (α : Type) where
  | missing : DiskFile α
  | unreadable : DiskFile α
  | corrupt : DiskFile α
  | json : List α → DiskFile α
deriving DecidableEq

/-- `_read_json_file`: a missing file (`ENOENT`) and a file whose content is
not parseable JSON both read as the empty list; any other `IOError` is
re-raised (`none`). -/
def read_json_file {α : Type} : DiskFile α → Option (List α)
  | .missing => some []
  | .unreadable => none
  | .corrupt => some []
  | .json l => some l

/-- One checkpoint directory: the three journal files, the `CHANGES_SINCE`
notes (`none` = file absent), and the backup copies stored in the directory,
keyed by their file name. -/
structure CpDir where
  filepaths : DiskFile Str
  new_files : DiskFile Str
  commands : DiskFile (List Str)
  changes : Option Str
  backups : FMap

/-- A freshly created, empty checkpoint directory. -/
def emptyCp : CpDir :=
  { filepaths := .missing, new_files := .missing, commands := .missing,
    changes := none, backups := fun _ => none }

/-- Reading a journal file of a checkpoint directory that may not exist:
a missing directory gives `ENOENT` on the journal path. -/
def dirFile {α : Type} (d : Option CpDir) (sel : CpDir → DiskFile α) : DiskFile α :=
  match d with
  | none => .missing
  | some c => sel c

/-- The whole store: the live filesystem, the temporary checkpoint directory,
the in-progress checkpoint directory, and the backup root holding the
finalized checkpoints keyed by their directory name. -/
structure RState where
  live : FMap
  temp : Option CpDir
  prog : Option CpDir
  backups : List (Str × CpDir)

/-- The distinct exceptions the engine can let escape. -/
inductive Err where
  | ioErr : Err
  | overwriteChal : Str → Err
  | addFailed : Err
  | registerEmpty : Err
  | registerFailed : Err
  | recoverFailed : Err
  | tempRevertFailed : Err
  | rollbackLoadFailed : Err
  | inProgressFailed : Err
  | finalizeValueError : Err
  | finalizeRenameFailed : Err
deriving DecidableEq

/-- `os.path.basename`: the part of the path after the last `/`. -/
def basename (p : Str) : Str :=
  (p.reverse.takeWhile (fun c => c ≠ '/')).reverse

/-- Fuel-bounded digit renderer (structural recursion, so that concrete
backup-slot names evaluate); fuel `n + 1` always suffices for `n`. -/
def natStrCore : Nat → Nat → Str
  | 0, _ => []
  | fuel + 1, n =>
    if n < 10 then [Nat.digitChar n]
    else natStrCore fuel (n / 10) ++ [Nat.digitChar (n % 10)]

/-- Decimal rendering of a natural number, as Python's `str` of an `int`. -/
def natStr (n : Nat) : Str := natStrCore (n + 1) n

/-- The name under which the backup copy of `f` for index `idx` is stored:
`os.path.basename(f) + "_" + str(idx)`. -/
def backup_name (f : Str) (idx : Nat) : Str :=
  basename f ++ '_' :: natStr idx

/-- The `for filename in save_files` loop of `_add_to_checkpoint_dir`:
skip paths already journalled, otherwise copy the live bytes to the backup
slot named `backup_name` and append the path.  `shutil.copy2` of a missing
source raises `IOError`, which stops the loop (`false`); the copies already
made stay on disk. -/
def add_files_loop (live : FMap) :
    List Str → List Str → Nat → FMap → List Str × FMap × Bool
  | [], paths, _, bks => (paths, bks, true)
  | f :: fs, paths, idx, bks =>
    if f ∈ paths then add_files_loop live fs paths idx bks
    else
      match live f with
      | none => (paths, bks, false)
      | some c =>
          add_files_loop live fs (paths ++ [f]) (idx + 1)
            (mupd bks (backup_name f idx) (some c))

/-- `_add_to_checkpoint_dir`: create the directory if needed, read `FILEPATHS`
(an `IOError` other than `ENOENT` here propagates raw, since this read is
outside the `try`), run the copy loop starting at `idx = len(existing)`,
then persist the updated list and append the notes; a copy failure is
reported as a `ReverterError` and leaves `FILEPATHS` and `CHANGES_SINCE`
unwritten. -/
def add_to_checkpoint_dir (cp : Option CpDir) (live : FMap)
    (save_files : List Str) (save_notes : Str) : CpDir × Option Err :=
  let cp0 := cp.getD emptyCp
  match read_json_file cp0.filepaths with
  | none => (cp0, some .ioErr)
  | some existing =>
    match add_files_loop live save_files existing existing.length cp0.backups with
    | (paths, bks, true) =>
        ({ cp0 with backups := bks, filepaths := .json paths,
                    changes := some (cp0.changes.getD [] ++ save_notes) }, none)
    | (_, bks, false) =>
        ({ cp0 with backups := bks }, some .addFailed)

/-- `add_to_temp_checkpoint`: stage files into the temporary checkpoint. -/
def add_to_temp_checkpoint (st : RState) (save_files : List Str)
    (save_notes : Str) : RState × Option Err :=
  let r := add_to_checkpoint_dir st.temp st.live save_files save_notes
  ({ st with temp := some r.1 }, r.2)

/-- `_check_tempfile_saves`: collect the temporary checkpoint's `FILEPATHS`
and `NEW_FILES` entries and fail on the first one that is about to be saved
again. -/
def check_tempfile_saves (temp : Option CpDir) (save_files : List Str) :
    Option Err :=
  match read_json_file (dirFile temp CpDir.filepaths) with
  | none => some .ioErr
  | some fps =>
    match read_json_file (dirFile temp CpDir.new_files) with
    | none => some .ioErr
    | some nfs =>
      match (fps ++ nfs).find? (fun f => decide (f ∈ save_files)) with
      | some f => some (.overwriteChal f)
      | none => none

/-- `add_to_checkpoint`: first verify the save does not overwrite a file
protected by the temporary checkpoint, then stage into the in-progress
checkpoint. -/
def add_to_checkpoint (st : RState) (save_files : List Str)
    (save_notes : Str) : RState × Option Err :=
  match check_tempfile_saves st.temp save_files with
  | some e => (st, some e)
  | none =>
    let r := add_to_checkpoint_dir st.prog st.live save_files save_notes
    ({ st with prog := some r.1 }, r.2)

/-- Write back one of the two mutable checkpoint slots. -/
def setDir (st : RState) (temporary : Bool) (cp : CpDir) : RState :=
  if temporary then { st with temp := some cp } else { st with prog := some cp }

/-- `register_file_creation`: append the given paths (skipping ones already
present) to the chosen checkpoint's `NEW_FILES`. -/
def register_file_creation (st : RState) (temporary : Bool)
    (files : List Str) : RState × Option Err :=
  if files = [] then (st, some .registerEmpty)
  else
    let cp0 := (if temporary then st.temp else st.prog).getD emptyCp
    match read_json_file cp0.new_files with
    | none => (setDir st temporary cp0, some .registerFailed)
    | some ex =>
        let ex2 := files.foldl (fun acc p => if p ∈ acc then acc else acc ++ [p]) ex
        (setDir st temporary { cp0 with new_files := .json ex2 }, none)

/-- `register_undo_command`: append the command to the chosen checkpoint's
`COMMANDS`. -/
def register_undo_command (st : RState) (temporary : Bool)
    (command : List Str) : RState × Option Err :=
  let cp0 := (if temporary then st.temp else st.prog).getD emptyCp
  match read_json_file cp0.commands with
  | none => (setDir st temporary cp0, some .registerFailed)
  | some cmds =>
      (setDir st temporary { cp0 with commands := .json (cmds ++ [command]) }, none)

/-- Outcome of executing one undo command in the outside world. -/
inductive ScriptResult where
  | ok : ScriptResult
  | launchFailure : ScriptResult
  | nonzeroExit : ScriptResult
deriving DecidableEq

/-- The observable environment: what running a command does, which `os.remove`
calls fail, and whether `shutil.rmtree` of the checkpoint directory fails. -/
structure Env where
  runScript : List Str → ScriptResult
  removeFails : Str → Bool
  rmtreeFails : Bool

/-- Modelled from the spec: `certbot.util.run_script` is not under `src/`.
Per the spec's description of the reference behavior, it raises
`SubprocessError` both when the command cannot be launched at all (an
`OSError`, e.g. a missing executable) and when the launched command exits
non-zero. -/
def run_script_raises : ScriptResult → Bool
  | .ok => false
  | .launchFailure => true
  | .nonzeroExit => true

/-- The loop of `_run_undo_commands`: each command is run and a
`SubprocessError` is caught and logged, never re-raised. -/
def run_undo_loop (env : Env) : List (List Str) → Option Err
  | [] => none
  | c :: cs =>
    if run_script_raises (env.runScript c) then run_undo_loop env cs
    else run_undo_loop env cs

/-- `_run_undo_commands`: read `COMMANDS` (a raw `IOError` here propagates,
there is no surrounding `try`) and run every command best-effort. -/
def run_undo_commands (env : Env) (commands : DiskFile (List Str)) : Option Err :=
  match read_json_file commands with
  | none => some .ioErr
  | some cmds => run_undo_loop env cmds

/-- The restore loop of `_recover_checkpoint`: copy the backup slot named
`backup_name path idx` back over `path`, for the journal entries in index
order; a missing backup copy makes `shutil.copy2` raise, stopping the loop
with the files restored so far kept. -/
def restore_files_loop (cp : CpDir) :
    List Str → Nat → FMap → FMap × Bool
  | [], _, live => (live, true)
  | p :: ps, idx, live =>
    match cp.backups (backup_name p idx) with
    | none => (live, false)
    | some c => restore_files_loop cp ps (idx + 1) (mupd live p (some c))

/-- The deletion loop of `_remove_contained_files`: delete each listed path
that still exists (`os.path.lexists`); a failing `os.remove` stops the loop. -/
def remove_files_loop (env : Env) : List Str → FMap → FMap × Bool
  | [], live => (live, true)
  | p :: ps, live =>
    if (live p).isSome then
      if env.removeFails p then (live, false)
      else remove_files_loop env ps (mupd live p none)
    else remove_files_loop env ps live

/-- `_remove_contained_files`: a missing `NEW_FILES` is not an error (the
function just returns `False`); otherwise read it (errors inside the `try`
become a `ReverterError`) and delete the listed files. -/
def remove_contained_files (env : Env) (nf : DiskFile Str) (live : FMap) :
    FMap × Option Err :=
  match nf with
  | .missing => (live, none)
  | nf' =>
    match read_json_file nf' with
    | none => (live, some .recoverFailed)
    | some ps =>
      match remove_files_loop env ps live with
      | (live2, true) => (live2, none)
      | (live2, false) => (live2, some .recoverFailed)

/-- `_recover_checkpoint`: run the undo commands, restore every `FILEPATHS`
entry in index order, delete the recorded new files, then remove the
checkpoint directory.  The result is the new live filesystem, whether the
checkpoint directory was removed, and the error if any. -/
def recover_checkpoint (env : Env) (live : FMap) (cp : CpDir) :
    FMap × Bool × Option Err :=
  match run_undo_commands env cp.commands with
  | some e => (live, false, some e)
  | none =>
    match read_json_file cp.filepaths with
    | none => (live, false, some .recoverFailed)
    | some entries =>
      match restore_files_loop cp entries 0 live with
      | (live1, false) => (live1, false, some .recoverFailed)
      | (live1, true) =>
        match remove_contained_files env cp.new_files live1 with
        | (live2, some _) => (live2, false, some .recoverFailed)
        | (live2, none) =>
          if env.rmtreeFails then (live2, false, some .recoverFailed)
          else (live2, true, none)

/-- `revert_temporary_config`: recover the temporary checkpoint if it exists;
a `ReverterError` is re-raised as "Unable to revert temporary config", while
a raw `IOError` propagates unchanged. -/
def revert_temporary_config (env : Env) (st : RState) : RState × Option Err :=
  match st.temp with
  | none => (st, none)
  | some cp =>
    match recover_checkpoint env st.live cp with
    | (live2, removed, err) =>
      let st2 := { st with live := live2, temp := if removed then none else some cp }
      match err with
      | none => (st2, none)
      | some .ioErr => (st2, some .ioErr)
      | some _ => (st2, some .tempRevertFailed)

/-- `recovery_routine`: revert the temporary checkpoint first; only when that
returned normally, recover the in-progress checkpoint if one exists. -/
def recovery_routine (env : Env) (st : RState) : RState × Option Err :=
  match revert_temporary_config env st with
  | (st1, some e) => (st1, some e)
  | (st1, none) =>
    match st1.prog with
    | none => (st1, none)
    | some cp =>
      match recover_checkpoint env st1.live cp with
      | (live2, removed, err) =>
        let st2 := { st1 with live := live2, prog := if removed then none else some cp }
        match err with
        | none => (st2, none)
        | some .ioErr => (st2, some .ioErr)
        | some _ => (st2, some .inProgressFailed)

/-- Sorting a list of directory names the way Python's `list.sort()` does:
ascending, lexicographically by code point. -/
def sortLex (l : List Str) : List Str :=
  List.insertionSort (fun a b : Str => a ≤ b) l

/-- Looking up a finalized checkpoint directory by name in the backup root. -/
def assocFind : List (Str × CpDir) → Str → Option CpDir
  | [], _ => none
  | (k, v) :: rest, nm => if k = nm then some v else assocFind rest nm

/-- Remove a finalized checkpoint directory from the backup root. -/
def assocErase (l : List (Str × CpDir)) (nm : Str) : List (Str × CpDir) :=
  l.filter (fun kv => kv.1 ≠ nm)

/-- The names `rollback_checkpoints` processes, in processing order: it sorts
the backup-root listing ascending and pops from the end. -/
def rollback_pop_order (st : RState) : List Str :=
  (sortLex (st.backups.map Prod.fst)).reverse

/-- The `while rollback > 0 and backups` loop: recover the named checkpoint
directories one at a time; a `ReverterError` is re-raised as "Unable to load
checkpoint during rollback".  Recovering a name whose directory is gone
restores nothing and fails at `rmtree`. -/
def rollback_loop (env : Env) : List Str → RState → RState × Option Err
  | [], st => (st, none)
  | nm :: rest, st =>
    match assocFind st.backups nm with
    | none => (st, some .rollbackLoadFailed)
    | some cp =>
      match recover_checkpoint env st.live cp with
      | (live2, removed, err) =>
        let bk2 := if removed then assocErase st.backups nm else st.backups
        let st2 := { st with live := live2, backups := bk2 }
        match err with
        | none => rollback_loop env rest st2
        | some .ioErr => (st2, some .ioErr)
        | some _ => (st2, some .rollbackLoadFailed)

/-- `rollback_checkpoints`: revert the `n` most recent finalized checkpoints,
newest (by string sort) first; fewer than `n` available is not an error. -/
def rollback_checkpoints (env : Env) (st : RState) (n : Nat) : RState × Option Err :=
  rollback_loop env ((rollback_pop_order st).take n) st

/-! ### The timestamp allocator

Python turns directory names into numbers with `float()` and renders the
bumped number with `str()`.  The model parses and renders plain decimal
notation exactly (`digits` optionally followed by `.` and digits); the
rounding noise of IEEE doubles at the magnitudes the reverter works with is
below the `+0.01` granularity used here, so the ordering facts proved about
the exact arithmetic are the ones the code exhibits. -/

/-- Value of one decimal digit character. -/
def digitVal (c : Char) : Nat := c.toNat - ('0').toNat

/-- Value of a string of decimal digits. -/
def digitsToNat : Str → Nat
  | [] => 0
  | c :: cs => digitVal c * 10 ^ cs.length + digitsToNat cs

/-- Split a decimal literal into its integer digits and fraction digits,
`float()`-style for plain decimal notation: `none` is a `ValueError`. -/
def splitFrac (s : Str) : Option (Str × Str) :=
  let I := s.takeWhile Char.isDigit
  if I = [] then none
  else
    match s.dropWhile Char.isDigit with
    | [] => some (I, [])
    | r :: F => if r = '.' ∧ F.all Char.isDigit then some (I, F) else none

/-- Strip trailing `'0'` characters. -/
def stripZeros (F : Str) : Str :=
  (F.reverse.dropWhile (fun c => c = '0')).reverse

/-- Left-pad a digit string with `'0'` to length `k`. -/
def padZeros (k : Nat) (d : Str) : Str :=
  List.replicate (k - d.length) '0' ++ d

/-- Render `total / 10 ^ k` the way Python's `str` renders such a float:
integer part, a dot, and the fraction digits with trailing zeros dropped but
at least one digit kept. -/
def renderScaled (total k : Nat) : Str :=
  let F0 := stripZeros (padZeros k (natStr (total % 10 ^ k)))
  natStr (total / 10 ^ k) ++ '.' :: (if F0 = [] then ['0'] else F0)

/-- `str(float(s) + centi / 100)`: parse `s`, add `centi` hundredths in exact
arithmetic, render.  The code uses `centi = 100` for the `+ 1` time-travel
bump and `centi = 1` for the `+ 0.01` collision bump. -/
def addScaled (s : Str) (centi : Nat) : Option Str :=
  match splitFrac s with
  | none => none
  | some (I, F) =>
    let k := max 2 F.length
    some (renderScaled
      (digitsToNat I * 10 ^ k + digitsToNat F * 10 ^ (k - F.length) + centi * 10 ^ (k - 2)) k)

/-- Numeric value of a decimal literal, as a rational. -/
def fracVal : Str → ℚ
  | [] => 0
  | c :: cs => ((digitVal c : ℚ) + fracVal cs) / 10

/-- Numeric value of a directory name; `none` when `float()` would raise. -/
def decValue (s : Str) : Option ℚ :=
  match splitFrac s with
  | none => none
  | some (I, F) => some ((digitsToNat I : ℚ) + fracVal F)

/-- Total version of `decValue` for stating order facts. -/
def decVal (s : Str) : ℚ := (decValue s).getD 0

/-- The `glob.glob(backup_dir, "[0-9]*")` filter: names starting with a
digit. -/
def digit_initial (nm : Str) : Bool :=
  match nm with
  | [] => false
  | c :: _ => c.isDigit

/-- `_checkpoint_timestamp`: list the digit-initial names of the backup root,
append the candidate, string-sort; bump to (last + 1) when the candidate is
not the last, bump by 0.01 when the candidate collides with the previous
entry; `none` when `float()` raises on a malformed directory name. -/
def checkpoint_timestamp (names : List Str) (now : Str) : Option Str :=
  let others := names.filter digit_initial ++ [now]
  let sorted := sortLex others
  let last := sorted.getLastD []
  if last ≠ now then addScaled last 100
  else if 1 < sorted.length ∧ sorted.getD (sorted.length - 2) [] = now then
    addScaled now 1
  else some now

/-- `finalize_checkpoint` followed by `_timestamp_progress_dir`: no-op when
no in-progress checkpoint exists; otherwise default the notes, prepend the
title line, allocate a timestamp and rename the directory into the backup
root.  A `ValueError` from the allocator propagates; a rename onto an
existing directory fails (modelled for a single attempt, which is exact for
a frozen clock). -/
def finalize_checkpoint (st : RState) (title : Str) (now : Str) : RState × Option Err :=
  match st.prog with
  | none => (st, none)
  | some cp =>
    let orig := cp.changes.getD ("No changes\n").data
    let notes := ("-- ").data ++ title ++ (" --\n").data ++ orig
    let cp2 := { cp with changes := some notes }
    match checkpoint_timestamp (st.backups.map Prod.fst) now with
    | none => ({ st with prog := some cp2 }, some .finalizeValueError)
    | some ts =>
      if (st.backups.map Prod.fst).contains ts then
        ({ st with prog := some cp2 }, some .finalizeRenameFailed)
      else
        ({ st with prog := none, backups := st.backups ++ [(ts, cp2)] }, none)

/-! ### Wellformedness of decimal directory names -/

/-- Integer-part digits of a decimal directory name. -/
def intP (s : Str) : Str := ((splitFrac s).getD ([], [])).1

/-- Fraction-part digits of a decimal directory name. -/
def frcP (s : Str) : Str := ((splitFrac s).getD ([], [])).2

/-- A canonical decimal timestamp name, as `str(time.time())` produces:
parses as `digits.digits`, with a nonempty fraction part that carries no
redundant trailing zero (except the single digit of `"….0"`). -/
def canonTs (s : Str) : Prop :=
  (splitFrac s).isSome = true ∧ frcP s ≠ [] ∧
    (frcP s = ['0'] ∨ (frcP s).getLast? ≠ some ('0'))

instance (s : Str) : Decidable (canonTs s) := by
  unfold canonTs; infer_instance

/-- Every character of the string is a decimal digit. -/
def allDigits (l : Str) : Prop := ∀ c ∈ l, c.isDigit = true

/-- The fraction part of a canonical decimal: all digits, and a trailing
`'0'` only as the single digit `"0"`. -/
def canonF (F : Str) : Prop :=
  allDigits F ∧ (F.getLast? = some ('0') → F = ['0'])

/-! ### Concrete fixtures used by witnesses and counterexamples -/

/-- A benign environment: commands succeed, removals and `rmtree` work. -/
def envOk : Env :=
  { runScript := fun _ => .ok, removeFails := fun _ => false, rmtreeFails := false }

/-- An environment in which every undo command fails to launch. -/
def envLaunchFail : Env :=
  { envOk with runScript := fun _ => .launchFailure }

/-- A sample path. -/
def pathA : Str := ("/etc/svc/conf").data

/-- A second sample path. -/
def pathB : Str := ("/etc/svc/other").data

/-- A live filesystem holding `pathA ↦ [65]` and `pathB ↦ [66]`. -/
def liveAB : FMap :=
  fun p => if p = pathA then some [65] else if p = pathB then some [66] else none

/-- An in-progress checkpoint protecting `pathA` with backup bytes `[65]`. -/
def cpProgA : CpDir :=
  { filepaths := .json [pathA], new_files := .missing, commands := .missing,
    changes := some [], backups := mupd (fun _ => none) (backup_name pathA 0) (some [65]) }

/-- A store whose in-progress checkpoint already protects `pathA`. -/
def stProgA : RState :=
  { live := liveAB, temp := none, prog := some cpProgA, backups := [] }

/-- A store whose temporary checkpoint already protects `pathA`. -/
def stTempA : RState :=
  { live := liveAB, temp := some cpProgA, prog := none, backups := [] }

/-- A fresh store over `liveAB` with nothing staged. -/
def stFresh : RState :=
  { live := liveAB, temp := none, prog := none, backups := [] }

/-- A checkpoint directory holding one undo command and nothing else. -/
def cpCmdOnly : CpDir :=
  { emptyCp with commands := .json [[("reload").data]] }

/-- A checkpoint directory whose three journal files all hold unparseable
JSON. -/
def cpAllCorrupt : CpDir :=
  { filepaths := .corrupt, new_files := .corrupt, commands := .corrupt,
    changes := some [], backups := fun _ => none }

/-- A checkpoint whose `FILEPATHS` names `pathA` but whose backup slot for it
is missing, so restoration fails. -/
def cpBrokenSlot : CpDir :=
  { emptyCp with filepaths := .json [pathA] }

/-- A temporary checkpoint protecting `pathA` with conflicting backup bytes
`[84]`. -/
def cpTempConflict : CpDir :=
  { filepaths := .json [pathA], new_files := .missing, commands := .missing,
    changes := some [], backups := mupd (fun _ => none) (backup_name pathA 0) (some [84]) }

/-- A store where both the temporary and the in-progress checkpoint back up
`pathA`, with different bytes. -/
def stBoth : RState :=
  { live := liveAB, temp := some cpTempConflict, prog := some cpProgA, backups := [] }

/-- The checkpoint directory `_add_to_checkpoint_dir` produces when staging
into a freshly created directory: journalled paths `ps`, backup copies
`bks`, the notes appended to an absent `CHANGES_SINCE`. -/
def stagedCp (bks : FMap) (ps : List Str) (notes : Str) : CpDir :=
  { emptyCp with
      backups := bks, filepaths := .json ps,
      changes := some (emptyCp.changes.getD [] ++ notes) }

/-- A backup root holding the two finalized checkpoints the allocator itself
produces for a clock that jumps backward across a digit-width boundary:
first `9.0`, then `10.0` (allocated for the candidate `10.5`). -/
def stNineTen : RState :=
  { live := liveAB, temp := none, prog := none,
    backups := [((("9.0").data), emptyCp), ((("10.0").data), emptyCp)] }

/-- A backup root holding two finalized checkpoints `9.0` and `8.5`, whose
integer parts are equally long. -/
def stPair : RState :=
  { live := liveAB, temp := none, prog := none,
    backups := [((("9.0").data), emptyCp), ((("8.5").data), emptyCp)] }

/-! ### Basic lemmas: maps, digit strings, backup-slot names -/

theorem mupd_same (m : FMap) (k : Str) (v : Option Content) : mupd m k v k = v := by
  simp [mupd]

theorem mupd_other (m : FMap) (k q : Str) (v : Option Content) (h : q ≠ k) :
    mupd m k v q = m q := by
  simp [mupd, h]

theorem natStr_ne_nil (n : Nat) : natStr n ≠ [] := by
  rw [natStr, natStrCore]
  split <;> simp

theorem digitChar_isDigit {n : Nat} (h : n < 10) : (Nat.digitChar n).isDigit = true := by
  interval_cases n <;> decide

theorem mem_natStrCore_isDigit :
    ∀ (fuel n : Nat) (c : Char), c ∈ natStrCore fuel n → c.isDigit = true := by
  intro fuel
  induction fuel with
  | zero => intro n c hc; simp [natStrCore] at hc
  | succ fuel ih =>
    intro n c hc
    rw [natStrCore] at hc
    by_cases h : n < 10
    · rw [if_pos h] at hc
      simp only [List.mem_singleton] at hc
      subst hc
      exact digitChar_isDigit h
    · rw [if_neg h] at hc
      rcases List.mem_append.mp hc with h1 | h2
      · exact ih (n / 10) c h1
      · simp only [List.mem_singleton] at h2
        subst h2
        exact digitChar_isDigit (Nat.mod_lt _ (by omega))

theorem mem_natStr_isDigit : ∀ (n : Nat) (c : Char), c ∈ natStr n → c.isDigit = true :=
  fun n c h => mem_natStrCore_isDigit (n + 1) n c h

theorem underscore_not_mem_natStr (n : Nat) : ('_') ∉ natStr n := by
  intro hmem
  have := mem_natStr_isDigit n _ hmem
  simp at this

theorem underscore_split : ∀ (b1 b2 d1 d2 : Str), ('_') ∉ d1 → ('_') ∉ d2 →
    b1 ++ '_' :: d1 = b2 ++ '_' :: d2 → b1 = b2 ∧ d1 = d2 := by
  intro b1
  induction b1 with
  | nil =>
    intro b2 d1 d2 h1 h2 heq
    cases b2 with
    | nil => simpa using heq
    | cons c bs =>
      exfalso
      simp only [List.nil_append, List.cons_append, List.cons.injEq] at heq
      apply h1
      rw [heq.2]
      simp
  | cons c bs ih =>
    intro b2 d1 d2 h1 h2 heq
    cases b2 with
    | nil =>
      exfalso
      simp only [List.nil_append, List.cons_append, List.cons.injEq] at heq
      apply h2
      rw [← heq.2]
      simp
    | cons c2 bs2 =>
      simp only [List.cons_append, List.cons.injEq] at heq
      obtain ⟨hb, hd⟩ := ih bs2 d1 d2 h1 h2 heq.2
      exact ⟨by rw [heq.1, hb], hd⟩

theorem digitsToNat_append (a b : Str) :
    digitsToNat (a ++ b) = digitsToNat a * 10 ^ b.length + digitsToNat b := by
  induction a with
  | nil => simp [digitsToNat]
  | cons c cs ih =>
    simp only [List.cons_append, digitsToNat, ih, List.length_append, List.append_eq]
    ring

theorem digitVal_digitChar {n : Nat} (h : n < 10) : digitVal (Nat.digitChar n) = n := by
  interval_cases n <;> decide

theorem digitsToNat_natStrCore : ∀ (fuel n : Nat), n < 10 ^ fuel →
    digitsToNat (natStrCore fuel n) = n := by
  intro fuel
  induction fuel with
  | zero =>
    intro n hn
    simp only [pow_zero, Nat.lt_one_iff] at hn
    subst hn
    rfl
  | succ fuel ih =>
    intro n hn
    rw [natStrCore]
    by_cases h : n < 10
    · rw [if_pos h]
      simp [digitsToNat, digitVal_digitChar h]
    · rw [if_neg h]
      rw [digitsToNat_append]
      simp only [digitsToNat, List.length_nil, pow_zero, mul_one, Nat.add_zero, List.length_cons,
        pow_succ, one_mul]
      rw [digitVal_digitChar (Nat.mod_lt _ (by omega))]
      rw [ih (n / 10) ?_]
      · omega
      · have h2 : n < 10 ^ fuel * 10 := by
          rw [← pow_succ]
          exact hn
        exact (Nat.div_lt_iff_lt_mul (by omega)).mpr h2

theorem lt_ten_pow_succ : ∀ n : Nat, n < 10 ^ (n + 1) := by
  intro n
  induction n with
  | zero => norm_num
  | succ k ih =>
    have hp : 0 < 10 ^ (k + 1) := pow_pos (by omega) _
    have hs : 10 ^ (k + 1 + 1) = 10 ^ (k + 1) * 10 := pow_succ 10 (k + 1)
    omega

theorem digitsToNat_natStr : ∀ n, digitsToNat (natStr n) = n := by
  intro n
  exact digitsToNat_natStrCore (n + 1) n (lt_ten_pow_succ n)

theorem natStr_inj {m n : Nat} (h : natStr m = natStr n) : m = n := by
  have := congrArg digitsToNat h
  rwa [digitsToNat_natStr, digitsToNat_natStr] at this

theorem backup_name_inj_index {f g : Str} {i j : Nat}
    (h : backup_name f i = backup_name g j) : i = j := by
  unfold backup_name at h
  have h2 := underscore_split (basename f) (basename g) (natStr i) (natStr j)
    (underscore_not_mem_natStr i) (underscore_not_mem_natStr j) h
  exact natStr_inj h2.2

theorem backup_name_ne_of_index_ne {f g : Str} {i j : Nat} (h : i ≠ j) :
    backup_name f i ≠ backup_name g j :=
  fun heq => h (backup_name_inj_index heq)

/-! ### Lemmas about the staging loop -/

theorem add_files_loop_preserves_low (live : FMap) :
    ∀ (files paths : List Str) (idx : Nat) (bks : FMap) (g : Str) (j : Nat), j < idx →
      (add_files_loop live files paths idx bks).2.1 (backup_name g j) =
        bks (backup_name g j) := by
  intro files
  induction files with
  | nil => intro paths idx bks g j _; rfl
  | cons f fs ih =>
    intro paths idx bks g j hj
    unfold add_files_loop
    by_cases hmem : f ∈ paths
    · rw [if_pos hmem]
      exact ih paths idx bks g j hj
    · rw [if_neg hmem]
      cases hlv : live f with
      | none => rfl
      | some c =>
        rw [ih (paths ++ [f]) (idx + 1) _ g j (by omega)]
        exact mupd_other _ _ _ _ (backup_name_ne_of_index_ne (by omega))

theorem add_files_loop_front (live : FMap) :
    ∀ (files paths : List Str) (idx : Nat) (bks : FMap),
      paths <+: (add_files_loop live files paths idx bks).1 := by
  intro files
  induction files with
  | nil => intro paths idx bks; exact List.prefix_rfl
  | cons f fs ih =>
    intro paths idx bks
    unfold add_files_loop
    by_cases hmem : f ∈ paths
    · rw [if_pos hmem]; exact ih paths idx bks
    · rw [if_neg hmem]
      cases hlv : live f with
      | none => exact List.prefix_rfl
      | some c =>
        exact List.IsPrefix.trans (List.prefix_append paths [f]) (ih (paths ++ [f]) (idx + 1) _)

theorem add_files_loop_nodup (live : FMap) :
    ∀ (files paths : List Str) (idx : Nat) (bks : FMap), paths.Nodup →
      (add_files_loop live files paths idx bks).1.Nodup := by
  intro files
  induction files with
  | nil => intro paths idx bks h; exact h
  | cons f fs ih =>
    intro paths idx bks h
    unfold add_files_loop
    by_cases hmem : f ∈ paths
    · rw [if_pos hmem]; exact ih paths idx bks h
    · rw [if_neg hmem]
      cases hlv : live f with
      | none => exact h
      | some c =>
        refine ih (paths ++ [f]) (idx + 1) _ ?_
        rw [List.nodup_append]
        refine ⟨h, List.nodup_singleton f, ?_⟩
        intro a ha haf
        rw [List.mem_singleton] at haf
        subst haf
        exact hmem ha

theorem add_files_loop_slots (live : FMap) :
    ∀ (files paths : List Str) (bks : FMap),
      (∀ i p, paths.get? i = some p → bks (backup_name p i) = live p) →
      ∀ i p, (add_files_loop live files paths paths.length bks).1.get? i = some p →
        (add_files_loop live files paths paths.length bks).2.1 (backup_name p i) = live p := by
  intro files
  induction files with
  | nil => intro paths bks hinv i p hp; exact hinv i p hp
  | cons f fs ih =>
    intro paths bks hinv
    unfold add_files_loop
    by_cases hmem : f ∈ paths
    · rw [if_pos hmem]; exact ih paths bks hinv
    · rw [if_neg hmem]
      cases hlv : live f with
      | none => intro i p hp; exact hinv i p hp
      | some c =>
        have hinv2 : ∀ i p, (paths ++ [f]).get? i = some p →
            mupd bks (backup_name f paths.length) (some c) (backup_name p i) = live p := by
          intro i p hp
          have hbound : i < paths.length + 1 := by
            have := List.get?_eq_some.mp hp
            simpa using this.1
          by_cases hi : i < paths.length
          · rw [List.get?_append hi] at hp
            rw [mupd_other _ _ _ _ (backup_name_ne_of_index_ne (by omega))]
            exact hinv i p hp
          · have hieq : i = paths.length := by omega
            subst hieq
            rw [List.get?_concat_length] at hp
            cases hp
            rw [mupd_same, hlv]
        have hres := ih (paths ++ [f]) (mupd bks (backup_name f paths.length) (some c)) hinv2
        have hlen : (paths ++ [f]).length = paths.length + 1 := by simp
        rw [hlen] at hres
        exact hres

theorem add_files_loop_success (live : FMap) :
    ∀ (files paths : List Str) (idx : Nat) (bks : FMap),
      (∀ f ∈ files, (live f).isSome) →
      (add_files_loop live files paths idx bks).2.2 = true := by
  intro files
  induction files with
  | nil => intro paths idx bks _; rfl
  | cons f fs ih =>
    intro paths idx bks h
    unfold add_files_loop
    by_cases hmem : f ∈ paths
    · rw [if_pos hmem]
      exact ih paths idx bks (fun g hg => h g (List.mem_cons_of_mem f hg))
    · rw [if_neg hmem]
      cases hlv : live f with
      | none =>
        exfalso
        have := h f (List.mem_cons_self f fs)
        rw [hlv] at this
        simp at this
      | some c => exact ih (paths ++ [f]) (idx + 1) _ (fun g hg => h g (List.mem_cons_of_mem f hg))

/-! ### Lemmas about the recovery loops -/

theorem restore_files_loop_untouched (cp : CpDir) :
    ∀ (entries : List Str) (idx : Nat) (live : FMap) (q : Str), q ∉ entries →
      (restore_files_loop cp entries idx live).1 q = live q := by
  intro entries
  induction entries with
  | nil => intro idx live q _; rfl
  | cons p ps ih =>
    intro idx live q hq
    unfold restore_files_loop
    cases cp.backups (backup_name p idx) with
    | none => rfl
    | some c =>
      rw [ih (idx + 1) _ q (fun h => hq (List.mem_cons_of_mem p h))]
      exact mupd_other _ _ _ _ (fun h => hq (h ▸ List.mem_cons_self p ps))

theorem restore_files_loop_success (cp : CpDir) :
    ∀ (entries : List Str) (idx : Nat) (live : FMap),
      (∀ i p, entries.get? i = some p → (cp.backups (backup_name p (idx + i))).isSome) →
      (restore_files_loop cp entries idx live).2 = true := by
  intro entries
  induction entries with
  | nil => intro idx live _; rfl
  | cons p ps ih =>
    intro idx live h
    unfold restore_files_loop
    cases hslot : cp.backups (backup_name p idx) with
    | none =>
      exfalso
      have := h 0 p rfl
      rw [Nat.add_zero, hslot] at this
      simp at this
    | some c =>
      refine ih (idx + 1) _ ?_
      intro i q hq
      have := h (i + 1) q (by simpa using hq)
      rwa [show idx + (i + 1) = idx + 1 + i by omega] at this

theorem restore_files_loop_restores (cp : CpDir) :
    ∀ (entries : List Str) (idx : Nat) (live : FMap), entries.Nodup →
      (restore_files_loop cp entries idx live).2 = true →
      ∀ i p c, entries.get? i = some p →
        cp.backups (backup_name p (idx + i)) = some c →
        (restore_files_loop cp entries idx live).1 p = some c := by
  intro entries
  induction entries with
  | nil => intro idx live _ _ i p c hp _; simp at hp
  | cons q ps ih =>
    intro idx live hnd hflag i p c hp hslot
    rw [restore_files_loop] at hflag ⊢
    cases hs : cp.backups (backup_name q idx) with
    | none =>
      rw [hs] at hflag
      simp at hflag
    | some c0 =>
      rw [hs] at hflag
      dsimp only at hflag ⊢
      cases i with
      | zero =>
        simp only [List.get?_cons_zero, Option.some.injEq] at hp
        subst hp
        rw [Nat.add_zero] at hslot
        rw [hslot] at hs
        cases hs
        have hq : q ∉ ps := (List.nodup_cons.mp hnd).1
        rw [restore_files_loop_untouched cp ps (idx + 1) _ q hq]
        exact mupd_same _ _ _
      | succ j =>
        have hnd2 := (List.nodup_cons.mp hnd).2
        refine ih (idx + 1) _ hnd2 hflag j p c (by simpa using hp) ?_
        rwa [show idx + 1 + j = idx + (j + 1) by omega]

theorem remove_files_loop_not_mem (env : Env) :
    ∀ (ps : List Str) (live : FMap) (q : Str), q ∉ ps →
      (remove_files_loop env ps live).1 q = live q := by
  intro ps
  induction ps with
  | nil => intro live q _; rfl
  | cons p rest ih =>
    intro live q hq
    have hqp : q ≠ p := fun h => hq (h ▸ List.mem_cons_self p rest)
    have hqrest : q ∉ rest := fun h => hq (List.mem_cons_of_mem p h)
    rw [remove_files_loop]
    by_cases hex : (live p).isSome
    · rw [if_pos hex]
      by_cases hrm : env.removeFails p
      · rw [if_pos hrm]
      · rw [if_neg hrm]
        rw [ih _ q hqrest]
        exact mupd_other _ _ _ _ hqp
    · rw [if_neg hex]
      exact ih _ q hqrest

theorem run_undo_loop_eq_none (env : Env) : ∀ cmds, run_undo_loop env cmds = none := by
  intro cmds
  induction cmds with
  | nil => rfl
  | cons c cs ih =>
    rw [run_undo_loop]
    split <;> exact ih

theorem run_undo_commands_env_eq (e1 e2 : Env) (cmds : DiskFile (List Str)) :
    run_undo_commands e1 cmds = run_undo_commands e2 cmds := by
  unfold run_undo_commands
  cases read_json_file cmds with
  | none => rfl
  | some cs =>
    dsimp only
    rw [run_undo_loop_eq_none, run_undo_loop_eq_none]

theorem remove_files_loop_env_eq (e1 e2 : Env) (h : e1.removeFails = e2.removeFails) :
    ∀ ps live, remove_files_loop e1 ps live = remove_files_loop e2 ps live := by
  intro ps
  induction ps with
  | nil => intro live; rfl
  | cons p rest ih =>
    intro live
    rw [remove_files_loop, remove_files_loop, h]
    by_cases hex : (live p).isSome
    · rw [if_pos hex, if_pos hex]
      by_cases hrm : e2.removeFails p
      · rw [if_pos hrm, if_pos hrm]
      · rw [if_neg hrm, if_neg hrm, ih]
    · rw [if_neg hex, if_neg hex, ih]

theorem remove_contained_files_env_eq (e1 e2 : Env) (h : e1.removeFails = e2.removeFails)
    (nf : DiskFile Str) (live : FMap) :
    remove_contained_files e1 nf live = remove_contained_files e2 nf live := by
  unfold remove_contained_files
  cases nf with
  | missing => rfl
  | unreadable => rfl
  | corrupt => simp only [read_json_file, remove_files_loop_env_eq e1 e2 h]
  | json l => simp only [read_json_file, remove_files_loop_env_eq e1 e2 h]

theorem restore_files_loop_backups_eq {cp1 cp2 : CpDir} (hb : cp1.backups = cp2.backups) :
    ∀ (entries : List Str) (idx : Nat) (live : FMap),
      restore_files_loop cp1 entries idx live = restore_files_loop cp2 entries idx live := by
  intro entries
  induction entries with
  | nil => intro idx live; rfl
  | cons p ps ih =>
    intro idx live
    rw [restore_files_loop, restore_files_loop, hb]
    cases cp2.backups (backup_name p idx) with
    | none => rfl
    | some c => exact ih (idx + 1) _

theorem recover_checkpoint_congr (env : Env) (live : FMap) (cp1 cp2 : CpDir)
    (hb : cp1.backups = cp2.backups)
    (hf : read_json_file cp1.filepaths = read_json_file cp2.filepaths)
    (hn : ∀ lv, remove_contained_files env cp1.new_files lv =
      remove_contained_files env cp2.new_files lv)
    (hc : run_undo_commands env cp1.commands = run_undo_commands env cp2.commands) :
    recover_checkpoint env live cp1 = recover_checkpoint env live cp2 := by
  unfold recover_checkpoint
  rw [hc]
  cases run_undo_commands env cp2.commands with
  | some e => rfl
  | none =>
    dsimp only
    rw [hf]
    cases read_json_file cp2.filepaths with
    | none => rfl
    | some entries =>
      dsimp only
      rw [restore_files_loop_backups_eq hb]
      rcases restore_files_loop cp2 entries 0 live with ⟨live1, flag⟩
      cases flag with
      | false => rfl
      | true =>
        dsimp only
        rw [hn]

theorem add_to_checkpoint_dir_err_cases (cp : Option CpDir) (live : FMap)
    (files : List Str) (notes : Str) :
    (add_to_checkpoint_dir cp live files notes).2 = none ∨
    (add_to_checkpoint_dir cp live files notes).2 = some .ioErr ∨
    (add_to_checkpoint_dir cp live files notes).2 = some .addFailed := by
  unfold add_to_checkpoint_dir
  dsimp only
  cases hread : read_json_file (cp.getD emptyCp).filepaths with
  | none => right; left; rfl
  | some ex =>
    dsimp only
    rcases hloop : add_files_loop live files ex ex.length (cp.getD emptyCp).backups with
      ⟨paths, bks, flag⟩
    cases flag with
    | false => right; right; rfl
    | true => left; rfl

/-! ### Claim theorems -/

/-- C7 (counterexample): the only undo command of `cpCmdOnly` fails to launch
under `envLaunchFail` (a `SubprocessError` from `util.run_script`), yet
`_recover_checkpoint` reports success (`none`), contradicting the claim that
a launch failure makes the recovery be reported as failed. -/
theorem c7_counterexample :
    run_script_raises (envLaunchFail.runScript [("reload").data]) = true ∧
    (recover_checkpoint envLaunchFail liveAB cpCmdOnly).2.2 = none :=
  ⟨rfl, rfl⟩

/-- C7 (amended): during recovery an undo command's failure of either kind —
failure to launch (a missing executable) just like a non-zero exit — is
converted to a `SubprocessError`, caught and merely logged; the outcome of
`_recover_checkpoint` (restored files, directory removal, reported error)
does not depend on the undo commands' results at all. -/
theorem c7_launch_failures_tolerated :
    ∀ (e1 e2 : Env), e1.removeFails = e2.removeFails → e1.rmtreeFails = e2.rmtreeFails →
      ∀ (live : FMap) (cp : CpDir),
        recover_checkpoint e1 live cp = recover_checkpoint e2 live cp := by
  intro e1 e2 hrm hrt live cp
  unfold recover_checkpoint
  rw [run_undo_commands_env_eq e1 e2]
  cases run_undo_commands e2 cp.commands with
  | some e => rfl
  | none =>
    dsimp only
    cases read_json_file cp.filepaths with
    | none => rfl
    | some entries =>
      dsimp only
      rcases restore_files_loop cp entries 0 live with ⟨live1, flag⟩
      cases flag with
      | false => rfl
      | true =>
        dsimp only
        rw [remove_contained_files_env_eq e1 e2 hrm]
        rcases remove_contained_files e2 cp.new_files live1 with ⟨live2, err2⟩
        cases err2 with
        | some e => rfl
        | none =>
          dsimp only
          rw [hrt]

/-- C7 (witness): the amended theorem applied at a concrete input: recovery
under an environment whose every command launch fails equals recovery under
a fully benign environment. -/
theorem c7_launch_failures_tolerated_witness :
    recover_checkpoint envLaunchFail liveAB cpCmdOnly =
      recover_checkpoint envOk liveAB cpCmdOnly :=
  c7_launch_failures_tolerated envLaunchFail envOk rfl rfl liveAB cpCmdOnly

/-- C3 (counterexample): `pathA` is already staged in the in-progress
checkpoint of `stProgA` (it is in its `FILEPATHS`), yet
`add_to_temp_checkpoint` succeeds with no error at all — in particular no
overwrite error naming `pathA` — because the source performs no overwrite
check in this direction. -/
theorem c3_counterexample :
    stProgA.prog = some cpProgA ∧ cpProgA.filepaths = .json [pathA] ∧
    (add_to_temp_checkpoint stProgA [pathA] []).2 = none :=
  ⟨rfl, rfl, rfl⟩

/-- C3 (amended): `add_to_temp_checkpoint` performs no overwrite check
against the in-progress checkpoint: its result never depends on the
in-progress checkpoint's contents, and its error is never the overwrite
error (that check exists only in the opposite direction, inside
`add_to_checkpoint`).  It simply records the backups against the temporary
checkpoint and appends the note. -/
theorem c3_temp_staging_ignores_in_progress :
    ∀ (st : RState) (files : List Str) (notes : Str) (p1 p2 : Option CpDir),
      ((add_to_temp_checkpoint { st with prog := p1 } files notes).1.temp =
        (add_to_temp_checkpoint { st with prog := p2 } files notes).1.temp) ∧
      ((add_to_temp_checkpoint { st with prog := p1 } files notes).2 =
        (add_to_temp_checkpoint { st with prog := p2 } files notes).2) ∧
      ∀ f, (add_to_temp_checkpoint st files notes).2 ≠ some (.overwriteChal f) := by
  intro st files notes p1 p2
  refine ⟨rfl, rfl, ?_⟩
  intro f h
  rcases add_to_checkpoint_dir_err_cases st.temp st.live files notes with h1 | h1 | h1 <;>
    · have : (add_to_temp_checkpoint st files notes).2 =
          (add_to_checkpoint_dir st.temp st.live files notes).2 := rfl
      rw [this, h1] at h
      cases h

/-- C4: staging into the in-progress checkpoint first runs
`_check_tempfile_saves`; whenever one of the files to save is listed in the
temporary checkpoint's `FILEPATHS` or `NEW_FILES`, it raises the overwrite
`ReverterError` naming an offending file, and the whole state is returned
unchanged — nothing has been added to the in-progress checkpoint. -/
theorem c4_overwrite_check_precedes_staging :
    ∀ (st : RState) (files : List Str) (notes : Str) (fps nfs : List Str) (f : Str),
      read_json_file (dirFile st.temp CpDir.filepaths) = some fps →
      read_json_file (dirFile st.temp CpDir.new_files) = some nfs →
      f ∈ fps ++ nfs → f ∈ files →
      ∃ g, g ∈ fps ++ nfs ∧ g ∈ files ∧
        add_to_checkpoint st files notes = (st, some (.overwriteChal g)) := by
  intro st files notes fps nfs f hfps hnfs hf hff
  unfold add_to_checkpoint check_tempfile_saves
  rw [hfps, hnfs]
  dsimp only
  cases hfind : (fps ++ nfs).find? (fun g => decide (g ∈ files)) with
  | none =>
    exfalso
    have hex : ((fps ++ nfs).find? (fun g => decide (g ∈ files))).isSome := by
      rw [List.find?_isSome]
      exact ⟨f, hf, by simpa using hff⟩
    rw [hfind] at hex
    simp at hex
  | some g =>
    refine ⟨g, List.mem_of_find?_eq_some hfind, ?_, rfl⟩
    have := List.find?_some hfind
    simpa using this

/-- C4 (witness): `pathA` is protected by the temporary checkpoint of
`stTempA`, so staging it permanently fails with the overwrite error and
leaves the state unchanged. -/
theorem c4_overwrite_check_precedes_staging_witness :
    ∃ g, g ∈ [pathA] ++ [] ∧ g ∈ [pathA, pathB] ∧
      add_to_checkpoint stTempA [pathA, pathB] [] = (stTempA, some (.overwriteChal g)) :=
  c4_overwrite_check_precedes_staging stTempA [pathA, pathB] [] [pathA] [] pathA
    rfl rfl (by decide) (by decide)

/-- C10: a journal file that exists but does not parse as JSON reads exactly
like a missing one — `_read_json_file` yields the empty list with no error,
and only an `IOError` other than `ENOENT` propagates (`none` here); hence
staging against a corrupted `FILEPATHS` behaves like staging against a
missing one (same error, same backups, same notes, same journal content as
read back — only the stale corrupt bytes differ on failure) and restarts the
index at 0; recovery over a checkpoint with corrupted journal files restores
nothing and reports success. -/
theorem c10_corrupt_journal_like_missing :
    (∀ (α : Type), read_json_file (DiskFile.corrupt : DiskFile α) = some [] ∧
        read_json_file (DiskFile.missing : DiskFile α) = some [] ∧
        read_json_file (DiskFile.unreadable : DiskFile α) = none) ∧
    (∀ (cp : CpDir) (live : FMap) (files : List Str) (notes : Str),
        (read_json_file (add_to_checkpoint_dir (some { cp with filepaths := .corrupt })
            live files notes).1.filepaths =
          read_json_file (add_to_checkpoint_dir (some { cp with filepaths := .missing })
            live files notes).1.filepaths) ∧
        ((add_to_checkpoint_dir (some { cp with filepaths := .corrupt })
            live files notes).1.backups =
          (add_to_checkpoint_dir (some { cp with filepaths := .missing })
            live files notes).1.backups) ∧
        ((add_to_checkpoint_dir (some { cp with filepaths := .corrupt })
            live files notes).1.changes =
          (add_to_checkpoint_dir (some { cp with filepaths := .missing })
            live files notes).1.changes) ∧
        ((add_to_checkpoint_dir (some { cp with filepaths := .corrupt })
            live files notes).2 =
          (add_to_checkpoint_dir (some { cp with filepaths := .missing })
            live files notes).2)) ∧
    (∀ (f : Str) (c : Content) (fs : List Str) (notes : Str) (live : FMap),
        live f = some c →
        (add_to_checkpoint_dir (some { emptyCp with filepaths := .corrupt })
            live (f :: fs) notes).1.backups (backup_name f 0) = some c) ∧
    (∀ (env : Env) (live : FMap) (cp : CpDir),
        (recover_checkpoint env live { cp with filepaths := .corrupt } =
            recover_checkpoint env live { cp with filepaths := .missing }) ∧
        (recover_checkpoint env live { cp with new_files := .corrupt } =
            recover_checkpoint env live { cp with new_files := .missing }) ∧
        (recover_checkpoint env live { cp with commands := .corrupt } =
            recover_checkpoint env live { cp with commands := .missing })) ∧
    (∀ (env : Env) (live : FMap), env.rmtreeFails = false →
        recover_checkpoint env live cpAllCorrupt = (live, true, none)) := by
  refine ⟨fun α => ⟨rfl, rfl, rfl⟩, ?_, ?_, ?_, ?_⟩
  · intro cp live files notes
    unfold add_to_checkpoint_dir
    dsimp only [Option.getD, read_json_file, List.length_nil]
    rcases hloop : add_files_loop live files [] 0 cp.backups with ⟨paths, bks, flag⟩
    cases flag with
    | false => exact ⟨rfl, rfl, rfl, rfl⟩
    | true => exact ⟨rfl, rfl, rfl, rfl⟩
  · intro f c fs notes live hlv
    unfold add_to_checkpoint_dir
    dsimp only [Option.getD, read_json_file, List.length_nil]
    simp only [add_files_loop, List.nil_append, Nat.zero_add]
    rw [if_neg (List.not_mem_nil f), hlv]
    dsimp only
    -- after staging f at slot 0, later writes use indices ≥ 1
    rcases hres : add_files_loop live fs [f] 1
        (mupd emptyCp.backups (backup_name f 0) (some c)) with ⟨paths, bks, flag⟩
    have hpres := add_files_loop_preserves_low live fs [f] 1
      (mupd emptyCp.backups (backup_name f 0) (some c)) f 0 (by omega)
    rw [hres] at hpres
    dsimp only at hpres
    cases flag with
    | false =>
      dsimp only
      rw [hpres]
      exact mupd_same _ _ _
    | true =>
      dsimp only
      rw [hpres]
      exact mupd_same _ _ _
  · intro env live cp
    refine ⟨?_, ?_, ?_⟩
    · exact recover_checkpoint_congr env live _ _ rfl rfl (fun lv => rfl) rfl
    · exact recover_checkpoint_congr env live _ _ rfl rfl (fun lv => rfl) rfl
    · exact recover_checkpoint_congr env live _ _ rfl rfl (fun lv => rfl) rfl
  · intro env live h
    unfold recover_checkpoint run_undo_commands remove_contained_files cpAllCorrupt
    dsimp only [read_json_file, run_undo_loop, restore_files_loop, remove_files_loop]
    rw [h]
    rfl

theorem revert_temporary_config_prog (env : Env) (st : RState) :
    (revert_temporary_config env st).1.prog = st.prog := by
  unfold revert_temporary_config
  cases st.temp with
  | none => rfl
  | some cp =>
    dsimp only
    rcases recover_checkpoint env st.live cp with ⟨live2, removed, err⟩
    cases err with
    | none => rfl
    | some e => cases e <;> rfl

theorem remove_contained_files_not_mem (env : Env) (nf : DiskFile Str) (live : FMap)
    (q : Str) (h : ∀ l, read_json_file nf = some l → q ∉ l) :
    (remove_contained_files env nf live).1 q = live q := by
  unfold remove_contained_files
  cases nf with
  | missing => rfl
  | unreadable => rfl
  | corrupt =>
    dsimp only [read_json_file]
    have := remove_files_loop_not_mem env [] live q (h [] rfl)
    rcases hl : remove_files_loop env [] live with ⟨lv, flag⟩
    rw [hl] at this
    cases flag <;> exact this
  | json l =>
    dsimp only [read_json_file]
    have := remove_files_loop_not_mem env l live q (h l rfl)
    rcases hl : remove_files_loop env l live with ⟨lv, flag⟩
    rw [hl] at this
    cases flag <;> exact this

/-- Dissection of a successful `_recover_checkpoint` run: the journal read
succeeded, every backup slot was restored, the new files were deleted, and
the resulting live filesystem is the composition of those steps. -/
theorem recover_checkpoint_success_split (env : Env) (live : FMap) (cp : CpDir)
    (live2 : FMap) (removed : Bool)
    (h : recover_checkpoint env live cp = (live2, removed, none)) :
    ∃ entries, read_json_file cp.filepaths = some entries ∧
      (restore_files_loop cp entries 0 live).2 = true ∧
      (remove_contained_files env cp.new_files (restore_files_loop cp entries 0 live).1).2
        = none ∧
      live2 =
        (remove_contained_files env cp.new_files (restore_files_loop cp entries 0 live).1).1 ∧
      removed = true ∧ env.rmtreeFails = false := by
  unfold recover_checkpoint at h
  cases hcmd : run_undo_commands env cp.commands with
  | some e =>
    rw [hcmd] at h
    cases h
  | none =>
    rw [hcmd] at h
    dsimp only at h
    cases hread : read_json_file cp.filepaths with
    | none =>
      rw [hread] at h
      cases h
    | some entries =>
      rw [hread] at h
      dsimp only at h
      refine ⟨entries, rfl, ?_⟩
      rcases hrest : restore_files_loop cp entries 0 live with ⟨live1, flagR⟩
      rw [hrest] at h
      cases flagR with
      | false => cases h
      | true =>
        dsimp only at h
        refine ⟨rfl, ?_⟩
        rcases hrem : remove_contained_files env cp.new_files live1 with ⟨live2x, errRem⟩
        rw [hrem] at h
        cases errRem with
        | some e => cases h
        | none =>
          dsimp only at h
          cases hrm : env.rmtreeFails with
          | true =>
            rw [hrm] at h
            simp at h
          | false =>
            rw [hrm] at h
            simp only [Bool.false_eq_true, if_false] at h
            cases h
            exact ⟨rfl, rfl, rfl, rfl⟩

/-- C2: re-staging a path already journalled in a checkpoint's `FILEPATHS` is
idempotent: the path still occurs exactly once in `FILEPATHS` (which stays
duplicate-free), and the backup slot `basename_i` belonging to its original
index `i` is byte-for-byte untouched — the earliest-recorded copy is the one
kept.  This holds for `_add_to_checkpoint_dir` and hence for both
`add_to_checkpoint` and `add_to_temp_checkpoint`, which stage through it. -/
theorem c2_restaging_idempotent :
    ∀ (cp : CpDir) (live : FMap) (files : List Str) (notes : Str) (ex : List Str)
      (f : Str) (i : Nat),
      cp.filepaths = DiskFile.json ex → ex.Nodup → ex.get? i = some f → f ∈ files →
      (∀ l, (add_to_checkpoint_dir (some cp) live files notes).1.filepaths =
          DiskFile.json l → f ∈ l ∧ l.Nodup) ∧
      (add_to_checkpoint_dir (some cp) live files notes).1.backups (backup_name f i) =
        cp.backups (backup_name f i) := by
  intro cp live files notes ex f i hfp hnd hget hfmem
  obtain ⟨hi, -⟩ := List.get?_eq_some.mp hget
  have hfex : f ∈ ex := List.get?_mem hget
  unfold add_to_checkpoint_dir
  dsimp only [Option.getD]
  rw [hfp]
  dsimp only [read_json_file]
  rcases hloop : add_files_loop live files ex ex.length cp.backups with ⟨paths, bks, flag⟩
  have hpres := add_files_loop_preserves_low live files ex ex.length cp.backups f i hi
  rw [hloop] at hpres
  dsimp only at hpres
  have hpref := add_files_loop_front live files ex ex.length cp.backups
  rw [hloop] at hpref
  have hndres := add_files_loop_nodup live files ex ex.length cp.backups hnd
  rw [hloop] at hndres
  dsimp only at hpref hndres
  cases flag with
  | true =>
    refine ⟨?_, hpres⟩
    intro l hl
    dsimp only at hl
    cases hl
    exact ⟨hpref.subset hfex, hndres⟩
  | false =>
    refine ⟨?_, hpres⟩
    intro l hl
    dsimp only at hl
    cases hl
    exact ⟨hfex, hnd⟩

/-- C2 (witness): re-staging `pathA`, already journalled at index 0 of
`cpProgA`, keeps `FILEPATHS` duplicate-free with one occurrence and leaves
backup slot 0 untouched. -/
theorem c2_restaging_idempotent_witness :
    (∀ l, (add_to_checkpoint_dir (some cpProgA) liveAB [pathA] []).1.filepaths =
        DiskFile.json l → pathA ∈ l ∧ l.Nodup) ∧
    (add_to_checkpoint_dir (some cpProgA) liveAB [pathA] []).1.backups
        (backup_name pathA 0) = cpProgA.backups (backup_name pathA 0) :=
  c2_restaging_idempotent cpProgA liveAB [pathA] [] [pathA] pathA 0 rfl
    (by decide) rfl (by decide)

/-- C5: `recovery_routine` reverts the temporary checkpoint first and,
only when that returned normally, recovers the in-progress checkpoint: when
`revert_temporary_config` raises, the routine re-raises the same error with
the in-progress checkpoint untouched; and on a successful routine run, a
path backed up by the in-progress checkpoint ends up with the in-progress
backup bytes as its final live content — even if the temporary checkpoint
backed up the same path with different bytes, since the temporary restore
happened first and was then overwritten. -/
theorem c5_temp_reverted_before_in_progress :
    ∀ (env : Env) (st : RState),
      (∀ st1 e, revert_temporary_config env st = (st1, some e) →
        recovery_routine env st = (st1, some e) ∧ st1.prog = st.prog) ∧
      (∀ (cp : CpDir) (entries : List Str) (j : Nat) (p : Str) (c : Content),
        st.prog = some cp → cp.filepaths = DiskFile.json entries → entries.Nodup →
        entries.get? j = some p → cp.backups (backup_name p j) = some c →
        (∀ l, read_json_file cp.new_files = some l → p ∉ l) →
        (recovery_routine env st).2 = none →
        (recovery_routine env st).1.live p = some c) := by
  intro env st
  constructor
  · intro st1 e heq
    refine ⟨?_, ?_⟩
    · unfold recovery_routine
      rw [heq]
    · have := revert_temporary_config_prog env st
      rw [heq] at this
      exact this
  · intro cp entries j p c hprog hfp hnd hget hslot hnew hok
    unfold recovery_routine at hok ⊢
    revert hok
    rcases hrt : revert_temporary_config env st with ⟨st1, e1⟩
    intro hok
    cases e1 with
    | some e => cases hok
    | none =>
      dsimp only at hok ⊢
      have hprog1 : st1.prog = some cp := by
        have := revert_temporary_config_prog env st
        rw [hrt] at this
        rw [this, hprog]
      rw [hprog1] at hok ⊢
      dsimp only at hok ⊢
      revert hok
      rcases hrc : recover_checkpoint env st1.live cp with ⟨live2, removed, err⟩
      intro hok
      cases err with
      | some e =>
        cases e <;> cases hok
      | none =>
        dsimp only
        obtain ⟨entries2, hread2, hflag, hremok, hlive2, -, -⟩ :=
          recover_checkpoint_success_split env st1.live cp live2 removed hrc
        have hentries : entries2 = entries := by
          rw [hfp] at hread2
          cases hread2
          rfl
        subst hentries
        rw [hlive2]
        rw [remove_contained_files_not_mem env cp.new_files _ p hnew]
        exact restore_files_loop_restores cp entries2 0 st1.live hnd hflag j p c hget
          (by rw [Nat.zero_add]; exact hslot)

/-- C5 (witness): with both checkpoints backing up `pathA` (`[84]` in the
temporary one, `[65]` in the in-progress one), the routine leaves the
in-progress bytes as the final content. -/
theorem c5_temp_reverted_before_in_progress_witness :
    (recovery_routine envOk stBoth).1.live pathA = some [65] :=
  (c5_temp_reverted_before_in_progress envOk stBoth).2 cpProgA [pathA] 0 pathA [65]
    rfl rfl (by decide) rfl (by decide)
    (fun l hl => by cases hl; exact List.not_mem_nil pathA) (by decide)

/-- C6: `_recover_checkpoint` performs its steps in the fixed order — undo
commands, restore of every `FILEPATHS` entry in index order, deletion of the
recorded new files, removal of the checkpoint directory — and: a failure in
the restore step or the deletion step yields the recovery `ReverterError`
with the checkpoint directory left in place; when those steps succeed but
`shutil.rmtree` fails, the error is still raised, yet the live filesystem
carries all the effects of steps 1-3; only when everything succeeded is the
directory removed and success reported. -/
theorem c6_failed_recovery_keeps_directory :
    ∀ (env : Env) (live : FMap) (cp : CpDir) (entries : List Str) (live1 live2 : FMap),
      run_undo_commands env cp.commands = none →
      read_json_file cp.filepaths = some entries →
      (restore_files_loop cp entries 0 live = (live1, false) →
        recover_checkpoint env live cp = (live1, false, some .recoverFailed)) ∧
      (restore_files_loop cp entries 0 live = (live1, true) →
        (remove_contained_files env cp.new_files live1 = (live2, some .recoverFailed) →
          recover_checkpoint env live cp = (live2, false, some .recoverFailed)) ∧
        (remove_contained_files env cp.new_files live1 = (live2, none) →
          (env.rmtreeFails = true →
            recover_checkpoint env live cp = (live2, false, some .recoverFailed)) ∧
          (env.rmtreeFails = false →
            recover_checkpoint env live cp = (live2, true, none)))) := by
  intro env live cp entries live1 live2 hcmd hread
  have hbase : recover_checkpoint env live cp =
      match restore_files_loop cp entries 0 live with
      | (lv, false) => (lv, false, some .recoverFailed)
      | (lv, true) =>
        match remove_contained_files env cp.new_files lv with
        | (lv2, some _) => (lv2, false, some .recoverFailed)
        | (lv2, none) =>
          if env.rmtreeFails then (lv2, false, some .recoverFailed)
          else (lv2, true, none) := by
    unfold recover_checkpoint
    rw [hcmd, hread]
  constructor
  · intro hrest
    rw [hbase, hrest]
  · intro hrest
    constructor
    · intro hrem
      rw [hbase, hrest]
      dsimp only
      rw [hrem]
    · intro hrem
      constructor
      · intro hrm
        rw [hbase, hrest]
        dsimp only
        rw [hrem]
        dsimp only
        rw [hrm]
        rfl
      · intro hrm
        rw [hbase, hrest]
        dsimp only
        rw [hrem]
        dsimp only
        rw [hrm]
        rfl

/-- C6 (witness): recovering `cpBrokenSlot`, whose `FILEPATHS` names `pathA`
but whose backup slot is missing, fails with the recovery error and does not
remove the checkpoint directory. -/
theorem c6_failed_recovery_keeps_directory_witness :
    recover_checkpoint envOk liveAB cpBrokenSlot = (liveAB, false, some .recoverFailed) :=
  (c6_failed_recovery_keeps_directory envOk liveAB cpBrokenSlot [pathA] liveAB liveAB
    rfl rfl).1 rfl

theorem add_files_loop_mem (live : FMap) :
    ∀ (files paths : List Str) (idx : Nat) (bks : FMap),
      (add_files_loop live files paths idx bks).2.2 = true →
      ∀ f ∈ files, f ∈ (add_files_loop live files paths idx bks).1 := by
  intro files
  induction files with
  | nil => intro paths idx bks _ f hf; cases hf
  | cons g fs ih =>
    intro paths idx bks hflag f hf
    rw [add_files_loop] at hflag ⊢
    by_cases hmem : g ∈ paths
    · rw [if_pos hmem] at hflag ⊢
      rcases List.mem_cons.mp hf with h | h
      · subst h
        exact (add_files_loop_front live fs paths idx bks).subset hmem
      · exact ih paths idx bks hflag f h
    · rw [if_neg hmem] at hflag ⊢
      revert hflag
      cases hlv : live g with
      | none =>
        intro hflag
        simp at hflag
      | some c =>
        intro hflag
        dsimp only at hflag ⊢
        rcases List.mem_cons.mp hf with h | h
        · subst h
          refine (add_files_loop_front live fs (paths ++ [f]) (idx + 1) _).subset ?_
          simp
        · exact ih (paths ++ [g]) (idx + 1) _ hflag f h

theorem add_files_loop_subset (live : FMap) :
    ∀ (files paths : List Str) (idx : Nat) (bks : FMap),
      ∀ q ∈ (add_files_loop live files paths idx bks).1, q ∈ paths ∨ q ∈ files := by
  intro files
  induction files with
  | nil => intro paths idx bks q hq; exact Or.inl hq
  | cons g fs ih =>
    intro paths idx bks q hq
    rw [add_files_loop] at hq
    by_cases hmem : g ∈ paths
    · rw [if_pos hmem] at hq
      rcases ih paths idx bks q hq with h | h
      · exact Or.inl h
      · exact Or.inr (List.mem_cons_of_mem g h)
    · rw [if_neg hmem] at hq
      revert hq
      cases hlv : live g with
      | none =>
        intro hq
        dsimp only at hq
        exact Or.inl hq
      | some c =>
        intro hq
        dsimp only at hq
        rcases ih (paths ++ [g]) (idx + 1) _ q hq with h | h
        · rcases List.mem_append.mp h with h2 | h2
          · exact Or.inl h2
          · simp only [List.mem_singleton] at h2
            subst h2
            exact Or.inr (List.mem_cons_self q fs)
        · exact Or.inr (List.mem_cons_of_mem g h)

theorem checkpoint_timestamp_nil (now : Str) : checkpoint_timestamp [] now = some now := by
  unfold checkpoint_timestamp sortLex
  simp [List.insertionSort, List.getLastD]

/-- `finalize_checkpoint` over an empty backup root: the in-progress
directory moves under the name given by the current clock reading, its
journals and backups untouched (only `CHANGES_SINCE` gains the title). -/
theorem finalize_checkpoint_empty_root (st : RState) (title now : Str) (cp : CpDir)
    (hprog : st.prog = some cp) (hroot : st.backups = []) :
    ∃ cp2, finalize_checkpoint st title now =
      ({ st with prog := none, backups := [(now, cp2)] }, none) ∧
      cp2.filepaths = cp.filepaths ∧ cp2.new_files = cp.new_files ∧
      cp2.commands = cp.commands ∧ cp2.backups = cp.backups := by
  unfold finalize_checkpoint
  rw [hprog]
  dsimp only
  rw [hroot]
  rw [show (([] : List (Str × CpDir)).map Prod.fst) = ([] : List Str) from rfl]
  rw [checkpoint_timestamp_nil]
  dsimp only
  refine ⟨{ cp with changes := some (("-- ").data ++ title ++ (" --\n").data ++
      cp.changes.getD ("No changes\n").data) }, ?_, rfl, rfl, rfl, rfl⟩
  rfl

/-- Rolling back a backup root holding exactly one finalized checkpoint whose
journals are intact restores every journalled path from its backup slot,
whether or not the final `rmtree` succeeds. -/
theorem rollback_single_restores (env : Env) (st : RState) (nm : Str) (cp : CpDir)
    (ps : List Str)
    (hbk : st.backups = [(nm, cp)])
    (hfp : cp.filepaths = DiskFile.json ps)
    (hnf : cp.new_files = DiskFile.missing)
    (hcm : cp.commands = DiskFile.missing)
    (hslots : ∀ i p, ps.get? i = some p → (cp.backups (backup_name p (0 + i))).isSome) :
    (rollback_checkpoints env st 1).1.live =
      (restore_files_loop cp ps 0 st.live).1 := by
  have hpop : rollback_pop_order st = [nm] := by
    unfold rollback_pop_order sortLex
    rw [hbk]
    simp [List.insertionSort]
  unfold rollback_checkpoints
  rw [hpop]
  rw [show [nm].take 1 = [nm] from rfl]
  rw [rollback_loop]
  rw [show assocFind st.backups nm = some cp by rw [hbk]; unfold assocFind; rw [if_pos rfl]]
  have hrec : recover_checkpoint env st.live cp =
      ((restore_files_loop cp ps 0 st.live).1, decide (env.rmtreeFails = false),
        if env.rmtreeFails then some .recoverFailed else none) := by
    unfold recover_checkpoint run_undo_commands
    rw [hcm, hfp, hnf]
    dsimp only [read_json_file, run_undo_loop]
    have hfl := restore_files_loop_success cp ps 0 st.live (fun i p hp => hslots i p hp)
    rcases hrest : restore_files_loop cp ps 0 st.live with ⟨live1, flagR⟩
    rw [hrest] at hfl
    dsimp only at hfl
    subst hfl
    dsimp only [remove_contained_files]
    cases hrm : env.rmtreeFails with
    | true => rfl
    | false => rfl
  dsimp only
  rw [hrec]
  cases hrm : env.rmtreeFails with
  | true =>
    simp only [hrm]
    rfl
  | false =>
    simp only [hrm]
    rfl

/-- C1: a fresh permanent staging, followed by arbitrary mutation of the
live filesystem, `finalize_checkpoint` and `rollback_checkpoints 1`,
restores every staged file to its bytes at staging time.  The naming scheme
is part of the statement: the `i`-th entry of the staged `FILEPATHS` has its
backup stored under the flat name `basename_i`, holding exactly the live
bytes at staging time, and recovery copies slot `i` back over the `i`-th
entry. -/
theorem c1_rollback_restores_staged_content :
    ∀ (st0 : RState) (files : List Str) (notes title now : Str) (m : FMap) (env : Env),
      st0.prog = none → st0.backups = [] →
      check_tempfile_saves st0.temp files = none →
      (∀ f ∈ files, (st0.live f).isSome) →
      (add_to_checkpoint st0 files notes).2 = none ∧
      (finalize_checkpoint { (add_to_checkpoint st0 files notes).1 with live := m }
          title now).2 = none ∧
      ∃ cp ps, (add_to_checkpoint st0 files notes).1.prog = some cp ∧
        cp.filepaths = DiskFile.json ps ∧ ps.Nodup ∧
        (∀ f ∈ files, f ∈ ps) ∧
        (∀ i p, ps.get? i = some p → cp.backups (backup_name p i) = st0.live p) ∧
        (∀ f ∈ files,
          (rollback_checkpoints env
            (finalize_checkpoint { (add_to_checkpoint st0 files notes).1 with live := m }
              title now).1 1).1.live f = st0.live f) := by
  intro st0 files notes title now m env h1 h2 h3 h4
  rcases hloop : add_files_loop st0.live files [] 0 emptyCp.backups with ⟨ps, bks, flag⟩
  have hflag := add_files_loop_success st0.live files [] 0 emptyCp.backups h4
  rw [hloop] at hflag
  dsimp only at hflag
  subst hflag
  have hadd : add_to_checkpoint st0 files notes =
      ({ st0 with prog := some (stagedCp bks ps notes) }, none) := by
    unfold add_to_checkpoint
    rw [h3]
    dsimp only
    unfold add_to_checkpoint_dir
    rw [h1]
    dsimp only [Option.getD]
    rw [show emptyCp.filepaths = DiskFile.missing from rfl]
    dsimp only [read_json_file, List.length_nil]
    rw [hloop]
    rfl
  have hndps : ps.Nodup := by
    have h5 := add_files_loop_nodup st0.live files [] 0 emptyCp.backups List.nodup_nil
    rw [hloop] at h5
    exact h5
  have hmemps : ∀ f ∈ files, f ∈ ps := by
    intro f hf
    have h5 := add_files_loop_mem st0.live files [] 0 emptyCp.backups
    rw [hloop] at h5
    exact h5 rfl f hf
  have hsubps : ∀ q ∈ ps, q ∈ files := by
    intro q hq
    have h5 := add_files_loop_subset st0.live files [] 0 emptyCp.backups q
    rw [hloop] at h5
    rcases h5 hq with h | h
    · cases h
    · exact h
  have hslots : ∀ i p, ps.get? i = some p → bks (backup_name p i) = st0.live p := by
    intro i p hp
    have h5 := add_files_loop_slots st0.live files [] emptyCp.backups
      (fun i p hp => by cases hp) i p
    rw [List.length_nil] at h5
    rw [hloop] at h5
    exact h5 hp
  obtain ⟨cp2, hfin, hfp2, hnf2, hcm2, hbk2⟩ := finalize_checkpoint_empty_root
    { st0 with live := m, prog := some (stagedCp bks ps notes) }
    title now (stagedCp bks ps notes) rfl h2
  refine ⟨by rw [hadd], ?_, ?_⟩
  · rw [hadd]
    show (finalize_checkpoint
      { st0 with live := m, prog := some (stagedCp bks ps notes) } title now).2 = none
    rw [hfin]
  · refine ⟨stagedCp bks ps notes, ps,
      by rw [hadd], rfl, hndps, hmemps, hslots, ?_⟩
    intro f hf
    rw [hadd]
    show (rollback_checkpoints env
      (finalize_checkpoint
        { st0 with live := m, prog := some (stagedCp bks ps notes) } title now).1 1).1.live f
      = st0.live f
    rw [hfin]
    have hslots2 : ∀ i p, ps.get? i = some p →
        (cp2.backups (backup_name p (0 + i))).isSome := by
      intro i p hp
      rw [hbk2, Nat.zero_add]
      rw [show (stagedCp bks ps notes).backups = bks from rfl]
      rw [hslots i p hp]
      exact h4 p (hsubps p (List.get?_mem hp))
    rw [rollback_single_restores env _ now cp2 ps rfl hfp2 hnf2 hcm2 hslots2]
    obtain ⟨i, hi⟩ := List.mem_iff_get?.mp (hmemps f hf)
    obtain ⟨c, hc⟩ := Option.isSome_iff_exists.mp (h4 f hf)
    rw [hc]
    have hres := restore_files_loop_restores cp2 ps 0 m hndps
      (restore_files_loop_success cp2 ps 0 m hslots2) i f c hi
      (by
        rw [hbk2]
        rw [show (stagedCp bks ps notes).backups = bks from rfl]
        rw [Nat.zero_add, hslots i f hi]
        exact hc)
    exact hres

/-- C1 (witness): the scenario at a concrete input — stage `pathA` and
`pathB`, wipe the whole live filesystem, finalize under clock reading
`1000.5`, roll back one checkpoint: `pathA` is back to its staged bytes. -/
theorem c1_rollback_restores_staged_content_witness :
    (rollback_checkpoints envOk
      (finalize_checkpoint
        { (add_to_checkpoint stFresh [pathA, pathB] []).1 with live := fun _ => none }
        [] (("1000.5").data)).1 1).1.live pathA = stFresh.live pathA := by
  obtain ⟨-, -, cp, ps, -, -, -, -, -, hroll⟩ :=
    c1_rollback_restores_staged_content stFresh [pathA, pathB] [] []
      (("1000.5").data) (fun _ => none) envOk rfl rfl (by decide) (by decide)
  exact hroll pathA (by decide)

/-! ### Decimal strings: digits, values and lexicographic order -/

theorem isDigit_toNat {c : Char} (h : c.isDigit = true) :
    48 ≤ c.toNat ∧ c.toNat ≤ 57 := by
  simp [Char.isDigit] at h
  exact h

theorem char_lt_iff_toNat {c d : Char} : c < d ↔ c.toNat < d.toNat :=
  ⟨fun h => h, fun h => h⟩

theorem char_eq_of_toNat {c d : Char} (h : c.toNat = d.toNat) : c = d :=
  Char.ext (UInt32.toNat.inj h)

theorem digit_lt_iff {c d : Char} (hc : c.isDigit = true) (hd : d.isDigit = true) :
    c < d ↔ digitVal c < digitVal d := by
  obtain ⟨hc1, -⟩ := isDigit_toNat hc
  obtain ⟨hd1, -⟩ := isDigit_toNat hd
  rw [char_lt_iff_toNat]
  unfold digitVal
  rw [show ('0').toNat = 48 from rfl]
  omega

theorem digit_eq_of_digitVal {c d : Char} (hc : c.isDigit = true) (hd : d.isDigit = true)
    (h : digitVal c = digitVal d) : c = d := by
  obtain ⟨hc1, -⟩ := isDigit_toNat hc
  obtain ⟨hd1, -⟩ := isDigit_toNat hd
  unfold digitVal at h
  rw [show ('0').toNat = 48 from rfl] at h
  exact char_eq_of_toNat (by omega)

theorem digitVal_le_nine {c : Char} (hc : c.isDigit = true) : digitVal c ≤ 9 := by
  obtain ⟨h1, h2⟩ := isDigit_toNat hc
  unfold digitVal
  rw [show ('0').toNat = 48 from rfl]
  omega

theorem digitVal_pos {c : Char} (hc : c.isDigit = true) (h0 : c ≠ '0') :
    0 < digitVal c := by
  obtain ⟨h1, -⟩ := isDigit_toNat hc
  have hne : c.toNat ≠ 48 := by
    intro h
    exact h0 (char_eq_of_toNat (by rw [h]; rfl))
  unfold digitVal
  rw [show ('0').toNat = 48 from rfl]
  omega

theorem digitsToNat_lt (F : Str) (h : allDigits F) : digitsToNat F < 10 ^ F.length := by
  induction F with
  | nil => simp [digitsToNat]
  | cons c cs ih =>
    have hc := digitVal_le_nine (h c (List.mem_cons_self c cs))
    have hcs := ih (fun x hx => h x (List.mem_cons_of_mem c hx))
    simp only [digitsToNat, List.length_cons, pow_succ]
    calc digitVal c * 10 ^ cs.length + digitsToNat cs
        < digitVal c * 10 ^ cs.length + 10 ^ cs.length := by omega
      _ = (digitVal c + 1) * 10 ^ cs.length := by ring
      _ ≤ 10 * 10 ^ cs.length := Nat.mul_le_mul_right _ (by omega)
      _ = 10 ^ cs.length * 10 := by ring

theorem digitsToNat_pos_of_last (F : Str) (h : allDigits F) :
    ∀ d, F.getLast? = some d → d ≠ '0' → 0 < digitsToNat F := by
  induction F with
  | nil => intro d hd _; cases hd
  | cons c cs ih =>
    intro d hd h0
    cases cs with
    | nil =>
      simp only [List.getLast?_singleton, Option.some.injEq] at hd
      simp only [digitsToNat, List.length_nil, pow_zero, mul_one]
      have := digitVal_pos (h c (List.mem_cons_self c [])) (by rw [hd]; exact h0)
      omega
    | cons e es =>
      rw [List.getLast?_cons_cons] at hd
      have := ih (fun x hx => h x (List.mem_cons_of_mem c hx)) d hd h0
      simp only [digitsToNat] at this ⊢
      omega

theorem digitsToNat_inj (I1 I2 : Str) (h1 : allDigits I1) (h2 : allDigits I2)
    (hl : I1.length = I2.length) (hv : digitsToNat I1 = digitsToNat I2) : I1 = I2 := by
  induction I1 generalizing I2 with
  | nil =>
    cases I2 with
    | nil => rfl
    | cons d ds => cases hl
  | cons c cs ih =>
    cases I2 with
    | nil => cases hl
    | cons d ds =>
      simp only [List.length_cons, Nat.add_right_cancel_iff] at hl
      have hc := h1 c (List.mem_cons_self c cs)
      have hd := h2 d (List.mem_cons_self d ds)
      have hcs : allDigits cs := fun x hx => h1 x (List.mem_cons_of_mem c hx)
      have hds : allDigits ds := fun x hx => h2 x (List.mem_cons_of_mem d hx)
      have hbnd1 := digitsToNat_lt cs hcs
      have hbnd2 := digitsToNat_lt ds hds
      simp only [digitsToNat, hl] at hv
      have hvd : digitVal c = digitVal d := by
        rcases Nat.lt_trichotomy (digitVal c) (digitVal d) with h | h | h
        · exfalso
          have : digitVal c * 10 ^ ds.length + digitsToNat cs <
              digitVal d * 10 ^ ds.length + digitsToNat ds := by
            calc digitVal c * 10 ^ ds.length + digitsToNat cs
                < digitVal c * 10 ^ ds.length + 10 ^ ds.length := by
                  rw [hl] at hbnd1; omega
              _ = (digitVal c + 1) * 10 ^ ds.length := by ring
              _ ≤ digitVal d * 10 ^ ds.length := Nat.mul_le_mul_right _ (by omega)
              _ ≤ digitVal d * 10 ^ ds.length + digitsToNat ds := by omega
          omega
        · exact h
        · exfalso
          have : digitVal d * 10 ^ ds.length + digitsToNat ds <
              digitVal c * 10 ^ ds.length + digitsToNat cs := by
            calc digitVal d * 10 ^ ds.length + digitsToNat ds
                < digitVal d * 10 ^ ds.length + 10 ^ ds.length := by omega
              _ = (digitVal d + 1) * 10 ^ ds.length := by ring
              _ ≤ digitVal c * 10 ^ ds.length := Nat.mul_le_mul_right _ (by omega)
              _ ≤ digitVal c * 10 ^ ds.length + digitsToNat cs := by omega
          omega
      have hceq : c = d := digit_eq_of_digitVal hc hd hvd
      subst hceq
      have hveq : digitsToNat cs = digitsToNat ds := by omega
      rw [ih ds hcs hds hl hveq]

theorem fracVal_eq (F : Str) : fracVal F = (digitsToNat F : ℚ) / 10 ^ F.length := by
  induction F with
  | nil => simp [fracVal, digitsToNat]
  | cons c cs ih =>
    simp only [fracVal, digitsToNat, ih, List.length_cons]
    push_cast
    rw [pow_succ]
    field_simp

theorem fracVal_nonneg (F : Str) : 0 ≤ fracVal F := by
  rw [fracVal_eq]
  positivity

theorem fracVal_lt_one (F : Str) (h : allDigits F) : fracVal F < 1 := by
  rw [fracVal_eq]
  rw [div_lt_one (by positivity)]
  exact_mod_cast digitsToNat_lt F h

theorem fracVal_pos (F : Str) (h : allDigits F) (d : Char) (hd : F.getLast? = some d)
    (h0 : d ≠ '0') : 0 < fracVal F := by
  rw [fracVal_eq]
  apply div_pos
  · exact_mod_cast digitsToNat_pos_of_last F h d hd h0
  · positivity

theorem canonF_tail {c : Char} {cs : Str} (h : canonF (c :: cs)) : canonF cs := by
  obtain ⟨hd, hl⟩ := h
  refine ⟨fun x hx => hd x (List.mem_cons_of_mem c hx), ?_⟩
  intro hlast
  exfalso
  have hne : cs ≠ [] := by
    intro h
    rw [h] at hlast
    cases hlast
  have h2 : (c :: cs).getLast? = some ('0') := by
    cases cs with
    | nil => exact absurd rfl hne
    | cons e es =>
      rw [List.getLast?_cons_cons]
      exact hlast
  injection hl h2 with h4 h5
  exact hne h5

theorem fracVal_cons (c : Char) (cs : Str) :
    fracVal (c :: cs) = ((digitVal c : ℚ) + fracVal cs) / 10 := rfl

theorem fracVal_cons_lt_iff (c d : Char) (cs ds : Str) :
    fracVal (c :: cs) < fracVal (d :: ds) ↔
      (digitVal c : ℚ) + fracVal cs < (digitVal d : ℚ) + fracVal ds := by
  rw [fracVal_cons, fracVal_cons]
  exact div_lt_div_iff_of_pos_right (by norm_num)

/-- Lexicographic order of canonical fraction-digit strings is numeric order
of their values, except for the one degenerate pair `"" < "0"` (both value
zero), which a nonempty fraction part never produces. -/
theorem fracVal_lt_iff : ∀ (F1 F2 : Str), canonF F1 → canonF F2 →
    (List.Lex (· < ·) F1 F2 ↔
      (fracVal F1 < fracVal F2 ∨ (F1 = [] ∧ F2 = ['0']))) := by
  intro F1
  induction F1 with
  | nil =>
    intro F2 h1 h2
    cases F2 with
    | nil =>
      constructor
      · intro h
        cases h
      · rintro (h | ⟨-, h⟩)
        · exact absurd h (lt_irrefl _)
        · cases h
    | cons d ds =>
      constructor
      · intro _
        by_cases hd0 : d :: ds = ['0']
        · exact Or.inr ⟨rfl, hd0⟩
        · left
          obtain ⟨hdig, hcan⟩ := h2
          obtain ⟨dl, hdl⟩ : ∃ dl, (d :: ds).getLast? = some dl := by
            cases hgl : (d :: ds).getLast? with
            | none =>
              exfalso
              rw [List.getLast?_eq_none_iff] at hgl
              cases hgl
            | some dl => exact ⟨dl, rfl⟩
          have hdl0 : dl ≠ '0' := fun h => hd0 (hcan (h ▸ hdl))
          have := fracVal_pos (d :: ds) hdig dl hdl hdl0
          rw [show fracVal [] = 0 from rfl]
          exact this
      · intro _
        exact List.Lex.nil
  | cons c cs ih =>
    intro F2 h1 h2
    cases F2 with
    | nil =>
      constructor
      · intro h
        cases h
      · rintro (h | ⟨h, -⟩)
        · exfalso
          have h0 := fracVal_nonneg (c :: cs)
          rw [show fracVal [] = 0 from rfl] at h
          exact absurd (lt_of_le_of_lt h0 h) (lt_irrefl _)
        · cases h
    | cons d ds =>
      have hinv : List.Lex (· < ·) (c :: cs) (d :: ds) ↔
          (c < d ∨ (c = d ∧ List.Lex (· < ·) cs ds)) := by
        constructor
        · intro h
          cases h with
          | rel h => exact Or.inl h
          | cons h => exact Or.inr ⟨rfl, h⟩
        · rintro (h | ⟨he, h⟩)
          · exact List.Lex.rel h
          · subst he
            exact List.Lex.cons h
      have hcdig : c.isDigit = true := h1.1 c (List.mem_cons_self c cs)
      have hddig : d.isDigit = true := h2.1 d (List.mem_cons_self d ds)
      have hcs : canonF cs := canonF_tail h1
      have hds : canonF ds := canonF_tail h2
      have hf1 : fracVal cs < 1 := fracVal_lt_one cs hcs.1
      have hf2 : fracVal ds < 1 := fracVal_lt_one ds hds.1
      have hg1 : 0 ≤ fracVal cs := fracVal_nonneg cs
      have hg2 : 0 ≤ fracVal ds := fracVal_nonneg ds
      rw [hinv, fracVal_cons_lt_iff]
      rcases lt_trichotomy c d with hcd | hcd | hcd
      · have hv : digitVal c < digitVal d := (digit_lt_iff hcdig hddig).mp hcd
        have hvq : (digitVal c : ℚ) + 1 ≤ (digitVal d : ℚ) := by exact_mod_cast hv
        constructor
        · intro _
          left
          linarith
        · intro _
          exact Or.inl hcd
      · subst hcd
        have hbad : ¬(cs = [] ∧ ds = ['0']) := by
          rintro ⟨hcs0, hds0⟩
          subst hds0
          have := h2.2 (by rfl)
          cases this
        have hmainbad : ¬((c :: cs) = [] ∧ (c :: ds) = ['0']) := by
          rintro ⟨h, -⟩
          cases h
        constructor
        · rintro (h | ⟨-, h⟩)
          · exact absurd h (lt_irrefl c)
          · rcases (ih ds hcs hds).mp h with h2 | h2
            · left
              linarith
            · exact absurd h2 hbad
        · rintro (h | h)
          · right
            refine ⟨rfl, ?_⟩
            rw [(ih ds hcs hds)]
            left
            linarith
          · exact absurd h hmainbad
      · have hv : digitVal d < digitVal c := (digit_lt_iff hddig hcdig).mp hcd
        have hvq : (digitVal d : ℚ) + 1 ≤ (digitVal c : ℚ) := by exact_mod_cast hv
        constructor
        · rintro (h | ⟨he, -⟩)
          · exact absurd hcd (lt_asymm h)
          · subst he
            exact absurd hcd (lt_irrefl c)
        · rintro (h | h)
          · exfalso
            linarith
          · rcases h with ⟨h, -⟩
            cases h

theorem lex_cons_iff (c d : Char) (cs ds : Str) :
    List.Lex (· < ·) (c :: cs) (d :: ds) ↔ (c < d ∨ (c = d ∧ List.Lex (· < ·) cs ds)) := by
  constructor
  · intro h
    cases h with
    | rel h => exact Or.inl h
    | cons h => exact Or.inr ⟨rfl, h⟩
  · rintro (h | ⟨he, h⟩)
    · exact List.Lex.rel h
    · subst he
      exact List.Lex.cons h

theorem digits_lex_iff : ∀ (I1 I2 : Str), allDigits I1 → allDigits I2 →
    I1.length = I2.length →
    (List.Lex (· < ·) I1 I2 ↔ digitsToNat I1 < digitsToNat I2) := by
  intro I1
  induction I1 with
  | nil =>
    intro I2 h1 h2 hl
    cases I2 with
    | nil =>
      constructor
      · intro h
        cases h
      · intro h
        simp [digitsToNat] at h
    | cons d ds => cases hl
  | cons c cs ih =>
    intro I2 h1 h2 hl
    cases I2 with
    | nil => cases hl
    | cons d ds =>
      simp only [List.length_cons, Nat.add_right_cancel_iff] at hl
      have hcdig := h1 c (List.mem_cons_self c cs)
      have hddig := h2 d (List.mem_cons_self d ds)
      have hcs : allDigits cs := fun x hx => h1 x (List.mem_cons_of_mem c hx)
      have hds : allDigits ds := fun x hx => h2 x (List.mem_cons_of_mem d hx)
      have hb1 := digitsToNat_lt cs hcs
      have hb2 := digitsToNat_lt ds hds
      rw [lex_cons_iff]
      simp only [digitsToNat, hl]
      rcases lt_trichotomy c d with hcd | hcd | hcd
      · have hv := (digit_lt_iff hcdig hddig).mp hcd
        constructor
        · intro _
          calc digitVal c * 10 ^ ds.length + digitsToNat cs
              < digitVal c * 10 ^ ds.length + 10 ^ ds.length := by
                rw [hl] at hb1
                omega
            _ = (digitVal c + 1) * 10 ^ ds.length := by ring
            _ ≤ digitVal d * 10 ^ ds.length := Nat.mul_le_mul_right _ (by omega)
            _ ≤ digitVal d * 10 ^ ds.length + digitsToNat ds := by omega
        · intro _
          exact Or.inl hcd
      · subst hcd
        have hiff := ih ds hcs hds hl
        constructor
        · rintro (h | ⟨-, h⟩)
          · exact absurd h (lt_irrefl c)
          · have := hiff.mp h
            omega
        · intro h
          right
          refine ⟨rfl, hiff.mpr ?_⟩
          omega
      · have hv := (digit_lt_iff hddig hcdig).mp hcd
        constructor
        · rintro (h | ⟨he, -⟩)
          · exact absurd hcd (lt_asymm h)
          · subst he
            exact absurd hcd (lt_irrefl c)
        · intro h
          exfalso
          have : digitVal d * 10 ^ ds.length + digitsToNat ds <
              digitVal c * 10 ^ ds.length + digitsToNat cs := by
            calc digitVal d * 10 ^ ds.length + digitsToNat ds
                < digitVal d * 10 ^ ds.length + 10 ^ ds.length := by omega
              _ = (digitVal d + 1) * 10 ^ ds.length := by ring
              _ ≤ digitVal c * 10 ^ ds.length := Nat.mul_le_mul_right _ (by omega)
              _ ≤ digitVal c * 10 ^ ds.length + digitsToNat cs := by omega
          omega

theorem lex_append_iff : ∀ (I1 I2 xs ys : Str), I1.length = I2.length →
    (List.Lex (· < ·) (I1 ++ xs) (I2 ++ ys) ↔
      (List.Lex (· < ·) I1 I2 ∨ (I1 = I2 ∧ List.Lex (· < ·) xs ys))) := by
  intro I1
  induction I1 with
  | nil =>
    intro I2 xs ys hl
    cases I2 with
    | nil =>
      constructor
      · intro h
        exact Or.inr ⟨rfl, h⟩
      · rintro (h | ⟨-, h⟩)
        · cases h
        · exact h
    | cons d ds => cases hl
  | cons c cs ih =>
    intro I2 xs ys hl
    cases I2 with
    | nil => cases hl
    | cons d ds =>
      simp only [List.length_cons, Nat.add_right_cancel_iff] at hl
      simp only [List.cons_append]
      rw [lex_cons_iff, lex_cons_iff, ih ds xs ys hl]
      constructor
      · rintro (h | ⟨he, h | ⟨he2, h⟩⟩)
        · exact Or.inl (Or.inl h)
        · exact Or.inl (Or.inr ⟨he, h⟩)
        · subst he
          subst he2
          exact Or.inr ⟨rfl, h⟩
      · rintro ((h | ⟨he, h⟩) | ⟨he, h⟩)
        · exact Or.inl h
        · exact Or.inr ⟨he, Or.inl h⟩
        · injection he with he1 he2
          subst he1
          subst he2
          exact Or.inr ⟨rfl, Or.inr ⟨rfl, h⟩⟩

theorem splitFrac_spec : ∀ (s I F : Str), splitFrac s = some (I, F) →
    I ≠ [] ∧ allDigits I ∧ allDigits F ∧
    ((F = [] ∧ s = I) ∨ s = I ++ '.' :: F) := by
  intro s I F h
  unfold splitFrac at h
  by_cases hI : s.takeWhile Char.isDigit = []
  · rw [if_pos hI] at h
    cases h
  · rw [if_neg hI] at h
    have hIdig : allDigits (s.takeWhile Char.isDigit) :=
      fun c hc => List.mem_takeWhile_imp hc
    cases hR : s.dropWhile Char.isDigit with
    | nil =>
      rw [hR] at h
      simp only [Option.some.injEq, Prod.mk.injEq] at h
      obtain ⟨hI2, hF2⟩ := h
      subst hI2
      subst hF2
      refine ⟨hI, hIdig, fun c hc => absurd hc (List.not_mem_nil c), Or.inl ⟨rfl, ?_⟩⟩
      conv_lhs => rw [← List.takeWhile_append_dropWhile Char.isDigit s]
      rw [hR, List.append_nil]
    | cons r rs =>
      rw [hR] at h
      dsimp only at h
      by_cases hcond : r = '.' ∧ rs.all Char.isDigit
      · rw [if_pos hcond] at h
        simp only [Option.some.injEq, Prod.mk.injEq] at h
        obtain ⟨hI2, hF2⟩ := h
        subst hI2
        subst hF2
        obtain ⟨hr, hall⟩ := hcond
        subst hr
        refine ⟨hI, hIdig, ?_, Or.inr ?_⟩
        · intro c hc
          exact List.all_eq_true.mp hall c hc
        · conv_lhs => rw [← List.takeWhile_append_dropWhile Char.isDigit s]
          rw [hR]
      · rw [if_neg hcond] at h
        cases h

theorem decVal_of_splitFrac {a I F : Str} (h : splitFrac a = some (I, F)) :
    decVal a = (digitsToNat I : ℚ) + fracVal F := by
  unfold decVal decValue
  rw [h]
  rfl

/-- For plain decimal names with equally long integer parts and canonical
nonempty fraction parts, Python string comparison (code-point lexicographic)
coincides with numeric comparison. -/
theorem decVal_lt_iff (a b I1 F1 I2 F2 : Str)
    (ha : splitFrac a = some (I1, F1)) (hb : splitFrac b = some (I2, F2))
    (hF1 : F1 ≠ []) (hF2 : F2 ≠ [])
    (hc1 : canonF F1) (hc2 : canonF F2)
    (hlen : I1.length = I2.length) :
    a < b ↔ decVal a < decVal b := by
  obtain ⟨hI1ne, hI1dig, hF1dig, hs1⟩ := splitFrac_spec a I1 F1 ha
  obtain ⟨hI2ne, hI2dig, hF2dig, hs2⟩ := splitFrac_spec b I2 F2 hb
  rcases hs1 with ⟨he, -⟩ | hs1
  · exact absurd he hF1
  rcases hs2 with ⟨he, -⟩ | hs2
  · exact absurd he hF2
  rw [decVal_of_splitFrac ha, decVal_of_splitFrac hb]
  subst hs1
  subst hs2
  have hlex : (I1 ++ '.' :: F1 < I2 ++ '.' :: F2) ↔
      List.Lex (· < ·) (I1 ++ '.' :: F1) (I2 ++ '.' :: F2) := Iff.rfl
  rw [hlex, lex_append_iff I1 I2 _ _ hlen]
  have hD := digits_lex_iff I1 I2 hI1dig hI2dig hlen
  have hf1lt := fracVal_lt_one F1 hF1dig
  have hf2lt := fracVal_lt_one F2 hF2dig
  have hf1ge := fracVal_nonneg F1
  have hf2ge := fracVal_nonneg F2
  rcases Nat.lt_trichotomy (digitsToNat I1) (digitsToNat I2) with hN | hN | hN
  · constructor
    · intro _
      have : ((digitsToNat I1 : ℚ) + 1) ≤ (digitsToNat I2 : ℚ) := by exact_mod_cast hN
      linarith
    · intro _
      exact Or.inl (hD.mpr hN)
  · have hIeq : I1 = I2 := digitsToNat_inj I1 I2 hI1dig hI2dig hlen hN
    subst hIeq
    have hfr := fracVal_lt_iff F1 F2 hc1 hc2
    constructor
    · rintro (h | ⟨-, h⟩)
      · exact absurd (hD.mp h) (lt_irrefl _)
      · rw [lex_cons_iff] at h
        rcases h with h | ⟨-, h⟩
        · exact absurd h (lt_irrefl _)
        · rcases hfr.mp h with h2 | ⟨he, -⟩
          · linarith
          · exact absurd he hF1
    · intro h
      right
      refine ⟨rfl, ?_⟩
      rw [lex_cons_iff]
      right
      refine ⟨rfl, ?_⟩
      rw [hfr]
      left
      linarith
  · constructor
    · rintro (h | ⟨he, -⟩)
      · exact absurd (hD.mp h) (by omega)
      · rw [he] at hN
        exact absurd hN (lt_irrefl _)
    · intro h
      exfalso
      have : ((digitsToNat I2 : ℚ) + 1) ≤ (digitsToNat I1 : ℚ) := by exact_mod_cast hN
      linarith

theorem takeWhile_all_append (p : Char → Bool) : ∀ (A : Str) (b : Char) (B : Str),
    (∀ a ∈ A, p a = true) → p b = false →
    (A ++ b :: B).takeWhile p = A ∧ (A ++ b :: B).dropWhile p = b :: B := by
  intro A
  induction A with
  | nil =>
    intro b B _ hb
    constructor
    · simp [List.takeWhile_cons, hb]
    · simp [List.dropWhile_cons, hb]
  | cons a as ih =>
    intro b B hA hb
    have hpa : p a = true := hA a (List.mem_cons_self a as)
    obtain ⟨h1, h2⟩ := ih b B (fun x hx => hA x (List.mem_cons_of_mem a hx)) hb
    constructor
    · simp only [List.cons_append, List.takeWhile_cons, hpa, if_true]
      rw [h1]
    · simp only [List.cons_append, List.dropWhile_cons, hpa, if_true]
      rw [h2]

theorem dropWhile_head_false (p : Char → Bool) : ∀ (l : Str) (d : Char) (ds : Str),
    l.dropWhile p = d :: ds → p d = false := by
  intro l
  induction l with
  | nil =>
    intro d ds h
    cases h
  | cons a as ih =>
    intro d ds h
    rw [List.dropWhile_cons] at h
    by_cases hpa : p a = true
    · rw [if_pos hpa] at h
      exact ih d ds h
    · rw [if_neg hpa] at h
      injection h with h1 h2
      subst h1
      simpa using hpa

theorem digitsToNat_replicate_zero (z : Nat) :
    digitsToNat (List.replicate z ('0')) = 0 := by
  induction z with
  | zero => rfl
  | succ n ih =>
    rw [List.replicate_succ]
    simp [digitsToNat, ih, digitVal]

theorem stripZeros_spec (F : Str) :
    ∃ z, F = stripZeros F ++ List.replicate z ('0') ∧
      (stripZeros F = [] ∨ (stripZeros F).getLast? ≠ some ('0')) := by
  obtain ⟨m, hTm⟩ : ∃ m, F.reverse.takeWhile (fun c => decide (c = '0')) =
      List.replicate m ('0') := by
    refine ⟨(F.reverse.takeWhile (fun c => decide (c = '0'))).length, ?_⟩
    apply List.eq_replicate_of_mem
    intro x hx
    have := List.mem_takeWhile_imp hx
    simpa using this
  unfold stripZeros
  refine ⟨m, ?_, ?_⟩
  · conv_lhs => rw [← List.reverse_reverse F]
    conv_lhs => rw [← List.takeWhile_append_dropWhile (fun c => decide (c = '0')) F.reverse]
    rw [List.reverse_append, hTm, List.reverse_replicate]
  · cases hD : F.reverse.dropWhile (fun c => c = '0') with
    | nil =>
      left
      rfl
    | cons d ds =>
      right
      rw [List.getLast?_reverse]
      simp only [List.head?_cons, Option.some.injEq]
      have := dropWhile_head_false (fun c => decide (c = '0')) F.reverse d ds hD
      simpa using this

theorem digitsToNat_stripZeros (F : Str) :
    ∃ z, digitsToNat F = digitsToNat (stripZeros F) * 10 ^ z ∧
      F.length = (stripZeros F).length + z := by
  obtain ⟨z, hz, -⟩ := stripZeros_spec F
  refine ⟨z, ?_, ?_⟩
  · conv_lhs => rw [hz]
    rw [digitsToNat_append, digitsToNat_replicate_zero, List.length_replicate]
    omega
  · conv_lhs => rw [hz]
    simp

theorem natStrCore_length_le : ∀ (fuel k n : Nat), n < 10 ^ k → 1 ≤ k →
    (natStrCore fuel n).length ≤ k := by
  intro fuel
  induction fuel with
  | zero =>
    intro k n _ _
    simp [natStrCore]
  | succ fuel ih =>
    intro k n hn hk
    rw [natStrCore]
    by_cases h : n < 10
    · rw [if_pos h]
      simpa using hk
    · rw [if_neg h]
      have hk2 : 2 ≤ k := by
        by_contra hc
        have hk1 : k = 1 := by omega
        rw [hk1] at hn
        simp at hn
        omega
      have hdiv : n / 10 < 10 ^ (k - 1) := by
        have h10 : n < 10 ^ (k - 1) * 10 := by
          rw [← pow_succ]
          rw [show k - 1 + 1 = k by omega]
          exact hn
        exact (Nat.div_lt_iff_lt_mul (by omega)).mpr h10
      have := ih (k - 1) (n / 10) hdiv (by omega)
      rw [List.length_append]
      simp only [List.length_cons, List.length_nil]
      omega

theorem natStr_length_le {k n : Nat} (hn : n < 10 ^ k) (hk : 1 ≤ k) :
    (natStr n).length ≤ k :=
  natStrCore_length_le (n + 1) k n hn hk

theorem natStr_all_digits (n : Nat) : allDigits (natStr n) :=
  fun c hc => mem_natStr_isDigit n c hc

/-- Parsing and valuing `renderScaled total k`: the rendered string splits
into `natStr (total / 10^k)` and a canonical nonempty fraction part, and its
numeric value is exactly `total / 10^k`. -/
theorem renderScaled_spec (total k : Nat) (hk : 1 ≤ k) :
    ∃ F2, splitFrac (renderScaled total k) = some (natStr (total / 10 ^ k), F2) ∧
      F2 ≠ [] ∧ canonF F2 ∧
      decVal (renderScaled total k) = (total : ℚ) / 10 ^ k := by
  have hm : total % 10 ^ k < 10 ^ k := Nat.mod_lt _ (by positivity)
  have hlen : (natStr (total % 10 ^ k)).length ≤ k := natStr_length_le hm hk
  have hpadlen : (padZeros k (natStr (total % 10 ^ k))).length = k := by
    unfold padZeros
    rw [List.length_append, List.length_replicate]
    omega
  have hpadval : digitsToNat (padZeros k (natStr (total % 10 ^ k))) = total % 10 ^ k := by
    unfold padZeros
    rw [digitsToNat_append, digitsToNat_replicate_zero, digitsToNat_natStr]
    simp
  have hpaddig : allDigits (padZeros k (natStr (total % 10 ^ k))) := by
    intro c hc
    unfold padZeros at hc
    rcases List.mem_append.mp hc with h | h
    · rw [List.eq_of_mem_replicate h]
      decide
    · exact natStr_all_digits _ c h
  obtain ⟨z, hzval, hzlen⟩ := digitsToNat_stripZeros (padZeros k (natStr (total % 10 ^ k)))
  obtain ⟨z2, hz2, hcanlast⟩ := stripZeros_spec (padZeros k (natStr (total % 10 ^ k)))
  have hstripdig : allDigits (stripZeros (padZeros k (natStr (total % 10 ^ k)))) := by
    intro c hc
    apply hpaddig
    rw [hz2]
    exact List.mem_append.mpr (Or.inl hc)
  set F0 := stripZeros (padZeros k (natStr (total % 10 ^ k))) with hF0
  have hrend : renderScaled total k =
      natStr (total / 10 ^ k) ++ '.' :: (if F0 = [] then ['0'] else F0) := rfl
  set F2 := if F0 = [] then ['0'] else F0 with hF2
  have hF2ne : F2 ≠ [] := by
    rw [hF2]
    by_cases h : F0 = []
    · rw [if_pos h]
      simp
    · rw [if_neg h]
      exact h
  have hF2dig : allDigits F2 := by
    rw [hF2]
    by_cases h : F0 = []
    · rw [if_pos h]
      intro c hc
      simp only [List.mem_singleton] at hc
      subst hc
      decide
    · rw [if_neg h]
      exact hstripdig
  have hF2canon : canonF F2 := by
    refine ⟨hF2dig, ?_⟩
    rw [hF2]
    by_cases h : F0 = []
    · rw [if_pos h]
      intro _
      rfl
    · rw [if_neg h]
      intro hlast
      rcases hcanlast with h2 | h2
      · exact absurd h2 h
      · exact absurd hlast h2
  have hsplit : splitFrac (renderScaled total k) = some (natStr (total / 10 ^ k), F2) := by
    rw [hrend]
    obtain ⟨ht, hd⟩ := takeWhile_all_append Char.isDigit (natStr (total / 10 ^ k)) ('.') F2
      (natStr_all_digits _) (by decide)
    unfold splitFrac
    rw [ht, hd]
    rw [if_neg (natStr_ne_nil _)]
    dsimp only
    rw [if_pos ⟨rfl, List.all_eq_true.mpr (fun c hc => hF2dig c hc)⟩]
  refine ⟨F2, hsplit, hF2ne, hF2canon, ?_⟩
  rw [decVal_of_splitFrac hsplit]
  rw [digitsToNat_natStr]
  have hfv : fracVal F2 = ((total % 10 ^ k : Nat) : ℚ) / 10 ^ k := by
    rw [hF2]
    by_cases h : F0 = []
    · rw [if_pos h]
      have hm0 : total % 10 ^ k = 0 := by
        rw [← hpadval]
        rw [hzval, h]
        simp [digitsToNat]
      rw [hm0]
      norm_num
      rw [show fracVal ['0'] = 0 by simp [fracVal, digitVal]]
    · rw [if_neg h]
      rw [fracVal_eq]
      rw [div_eq_div_iff (by positivity) (by positivity)]
      rw [hpadlen] at hzlen
      rw [← hpadval, hzval]
      push_cast
      rw [mul_assoc, ← pow_add]
      congr 2
      omega
  rw [hfv]
  have hkey : (10 : ℚ) ^ k * ((total / 10 ^ k : Nat) : ℚ) + ((total % 10 ^ k : Nat) : ℚ)
      = (total : ℚ) := by
    have h := congrArg (fun n : Nat => (n : ℚ)) (Nat.div_add_mod total (10 ^ k))
    push_cast at h
    exact h
  rw [eq_div_iff (by positivity : ((10 : ℚ)) ^ k ≠ 0)]
  rw [add_mul, div_mul_cancel₀ _ (by positivity : ((10 : ℚ)) ^ k ≠ 0)]
  linarith [hkey]

theorem canonTs_splitFrac {s : Str} (h : canonTs s) :
    splitFrac s = some (intP s, frcP s) := by
  obtain ⟨h1, -, -⟩ := h
  cases hs : splitFrac s with
  | none =>
    rw [hs] at h1
    cases h1
  | some p =>
    unfold intP frcP
    rw [hs]
    rfl

theorem canonF_frcP {s : Str} (h : canonTs s) : canonF (frcP s) := by
  obtain ⟨-, -, hdig, -⟩ := splitFrac_spec s (intP s) (frcP s) (canonTs_splitFrac h)
  refine ⟨hdig, ?_⟩
  intro hlast
  rcases h.2.2 with h3 | h3
  · exact h3
  · exact absurd hlast h3

theorem canon_lt_iff {a b : Str} (ha : canonTs a) (hb : canonTs b)
    (hlen : (intP a).length = (intP b).length) :
    a < b ↔ decVal a < decVal b :=
  decVal_lt_iff a b (intP a) (frcP a) (intP b) (frcP b)
    (canonTs_splitFrac ha) (canonTs_splitFrac hb) ha.2.1 hb.2.1
    (canonF_frcP ha) (canonF_frcP hb) hlen

theorem canon_le_iff {a b : Str} (ha : canonTs a) (hb : canonTs b)
    (hlen : (intP a).length = (intP b).length) :
    a ≤ b ↔ decVal a ≤ decVal b := by
  constructor
  · intro hle
    by_contra hcon
    push_neg at hcon
    exact absurd ((canon_lt_iff hb ha hlen.symm).mpr hcon) (not_lt.mpr hle)
  · intro hle
    by_contra hcon
    push_neg at hcon
    exact absurd ((canon_lt_iff hb ha hlen.symm).mp hcon) (not_lt.mpr hle)

theorem canon_val_lt_of_ne_le {a b : Str} (ha : canonTs a) (hb : canonTs b)
    (hlen : (intP a).length = (intP b).length)
    (hne : a ≠ b) (hle : a ≤ b) : decVal a < decVal b := by
  rw [← canon_lt_iff ha hb hlen]
  exact lt_of_le_of_ne hle hne

theorem canonTs_digit_initial {s : Str} (h : canonTs s) : digit_initial s = true := by
  obtain ⟨hne, -, hs⟩ := splitFrac_spec s (intP s) (frcP s) (canonTs_splitFrac h)
  have hI : intP s = s.takeWhile Char.isDigit := by
    have := canonTs_splitFrac h
    unfold splitFrac at this
    by_cases hc : s.takeWhile Char.isDigit = []
    · rw [if_pos hc] at this
      cases this
    · rw [if_neg hc] at this
      revert this
      cases s.dropWhile Char.isDigit with
      | nil =>
        intro this
        injection this with hp
        exact (congrArg Prod.fst hp).symm
      | cons r F =>
        intro this
        dsimp only at this
        by_cases hrf : r = '.' ∧ F.all Char.isDigit = true
        · rw [if_pos hrf] at this
          injection this with hp
          exact (congrArg Prod.fst hp).symm
        · rw [if_neg hrf] at this
          cases this
  cases hs2 : s with
  | nil =>
    rw [hI, hs2] at hne
    simp at hne
  | cons c cs =>
    have hcd : c.isDigit = true := by
      by_contra hcd
      rw [hI, hs2] at hne
      rw [List.takeWhile_cons] at hne
      simp only [Bool.not_eq_true] at hcd
      rw [hcd] at hne
      simp at hne
    unfold digit_initial
    exact hcd

/-- `str(float(s) + centi / 100)` on a canonical name: succeeds, yields a
canonical name, and adds exactly `centi` hundredths to the numeric value. -/
theorem addScaled_value (s : Str) (centi : Nat) (hs : canonTs s) :
    ∃ t, addScaled s centi = some t ∧ canonTs t ∧
      decVal t = decVal s + (centi : ℚ) / 100 := by
  have hsplit := canonTs_splitFrac hs
  have hk1 : 1 ≤ max 2 (frcP s).length := le_trans (by omega) (le_max_left 2 (frcP s).length)
  obtain ⟨F2, hrs, hF2ne, hF2c, hval⟩ :=
    renderScaled_spec
      (digitsToNat (intP s) * 10 ^ max 2 (frcP s).length +
        digitsToNat (frcP s) * 10 ^ (max 2 (frcP s).length - (frcP s).length) +
        centi * 10 ^ (max 2 (frcP s).length - 2))
      (max 2 (frcP s).length) hk1
  refine ⟨renderScaled
      (digitsToNat (intP s) * 10 ^ max 2 (frcP s).length +
        digitsToNat (frcP s) * 10 ^ (max 2 (frcP s).length - (frcP s).length) +
        centi * 10 ^ (max 2 (frcP s).length - 2)) (max 2 (frcP s).length), ?_, ?_, ?_⟩
  · unfold addScaled
    rw [hsplit]
  · refine ⟨?_, ?_, ?_⟩
    · rw [hrs]
      rfl
    · have hfr : frcP (renderScaled
          (digitsToNat (intP s) * 10 ^ max 2 (frcP s).length +
            digitsToNat (frcP s) * 10 ^ (max 2 (frcP s).length - (frcP s).length) +
            centi * 10 ^ (max 2 (frcP s).length - 2))
          (max 2 (frcP s).length)) = F2 := by
        have h0 : frcP (renderScaled
            (digitsToNat (intP s) * 10 ^ max 2 (frcP s).length +
              digitsToNat (frcP s) * 10 ^ (max 2 (frcP s).length - (frcP s).length) +
              centi * 10 ^ (max 2 (frcP s).length - 2))
            (max 2 (frcP s).length)) = ((splitFrac (renderScaled
            (digitsToNat (intP s) * 10 ^ max 2 (frcP s).length +
              digitsToNat (frcP s) * 10 ^ (max 2 (frcP s).length - (frcP s).length) +
              centi * 10 ^ (max 2 (frcP s).length - 2))
            (max 2 (frcP s).length))).getD ([], [])).2 := rfl
        rw [h0, hrs]
        rfl
      rw [hfr]
      exact hF2ne
    · have hfr : frcP (renderScaled
          (digitsToNat (intP s) * 10 ^ max 2 (frcP s).length +
            digitsToNat (frcP s) * 10 ^ (max 2 (frcP s).length - (frcP s).length) +
            centi * 10 ^ (max 2 (frcP s).length - 2))
          (max 2 (frcP s).length)) = F2 := by
        have h0 : frcP (renderScaled
            (digitsToNat (intP s) * 10 ^ max 2 (frcP s).length +
              digitsToNat (frcP s) * 10 ^ (max 2 (frcP s).length - (frcP s).length) +
              centi * 10 ^ (max 2 (frcP s).length - 2))
            (max 2 (frcP s).length)) = ((splitFrac (renderScaled
            (digitsToNat (intP s) * 10 ^ max 2 (frcP s).length +
              digitsToNat (frcP s) * 10 ^ (max 2 (frcP s).length - (frcP s).length) +
              centi * 10 ^ (max 2 (frcP s).length - 2))
            (max 2 (frcP s).length))).getD ([], [])).2 := rfl
        rw [h0, hrs]
        rfl
      rw [hfr]
      by_cases hl : F2.getLast? = some ('0')
      · exact Or.inl (hF2c.2 hl)
      · exact Or.inr hl
  · rw [hval, decVal_of_splitFrac hsplit]
    have hlk : (frcP s).length ≤ max 2 (frcP s).length := le_max_right 2 (frcP s).length
    have h2k : 2 ≤ max 2 (frcP s).length := le_max_left 2 (frcP s).length
    have hpk : ((10 : ℚ)) ^ max 2 (frcP s).length ≠ 0 := by positivity
    have hpl : ((10 : ℚ)) ^ (frcP s).length ≠ 0 := by positivity
    have t2 : ((digitsToNat (frcP s) : ℚ) * 10 ^ (max 2 (frcP s).length - (frcP s).length)) /
        10 ^ max 2 (frcP s).length = (digitsToNat (frcP s) : ℚ) / 10 ^ (frcP s).length := by
      rw [div_eq_div_iff hpk hpl]
      rw [mul_assoc, ← pow_add]
      congr 2
      omega
    have t3 : ((centi : ℚ) * 10 ^ (max 2 (frcP s).length - 2)) / 10 ^ max 2 (frcP s).length =
        (centi : ℚ) / 100 := by
      rw [show ((100 : ℚ)) = 10 ^ 2 by norm_num]
      rw [div_eq_div_iff hpk (by positivity)]
      rw [mul_assoc, ← pow_add]
      congr 2
      omega
    rw [fracVal_eq]
    calc ((digitsToNat (intP s) * 10 ^ max 2 (frcP s).length +
            digitsToNat (frcP s) * 10 ^ (max 2 (frcP s).length - (frcP s).length) +
            centi * 10 ^ (max 2 (frcP s).length - 2) : Nat) : ℚ) / 10 ^ max 2 (frcP s).length
        = ((digitsToNat (intP s) : ℚ) * 10 ^ max 2 (frcP s).length) / 10 ^ max 2 (frcP s).length +
            ((digitsToNat (frcP s) : ℚ) * 10 ^ (max 2 (frcP s).length - (frcP s).length)) /
              10 ^ max 2 (frcP s).length +
            ((centi : ℚ) * 10 ^ (max 2 (frcP s).length - 2)) / 10 ^ max 2 (frcP s).length := by
          push_cast
          ring
      _ = (digitsToNat (intP s) : ℚ) + (digitsToNat (frcP s) : ℚ) / 10 ^ (frcP s).length +
            (centi : ℚ) / 100 := by
          rw [mul_div_cancel_right₀ _ hpk, t2, t3]

theorem sortLex_sorted (l : List Str) : List.Sorted (fun a b : Str => a ≤ b) (sortLex l) :=
  List.sorted_insertionSort _ l

theorem sortLex_perm (l : List Str) : List.Perm (sortLex l) l :=
  List.perm_insertionSort _ l

theorem sorted_le_getLast : ∀ (l : List Str), List.Sorted (fun a b : Str => a ≤ b) l →
    ∀ M, l.getLast? = some M → ∀ x ∈ l, x ≤ M := by
  intro l
  induction l with
  | nil =>
    intro _ M hM
    cases hM
  | cons a rest ih =>
    intro hs M hM x hx
    rw [List.sorted_cons] at hs
    cases rest with
    | nil =>
      have hMa : a = M := by simpa using hM
      rcases List.mem_cons.mp hx with hxa | hxr
      · exact le_of_eq (hxa.trans hMa)
      · cases hxr
    | cons b bs =>
      have hM2 : (b :: bs).getLast? = some M := by
        rw [← List.getLast?_cons_cons]
        exact hM
      rcases List.mem_cons.mp hx with hxa | hxr
      · subst hxa
        exact hs.1 M (List.mem_of_getLast?_eq_some hM2)
      · exact ih hs.2 M hM2 x hxr

theorem two_last_decomp (l : List Str) (h : 2 ≤ l.length) :
    ∃ ys b a, l = ys ++ [b, a] ∧ l.getLast? = some a ∧ l.getD (l.length - 2) [] = b := by
  rcases List.eq_nil_or_concat l with h0 | ⟨L, a, hLa⟩
  · rw [h0] at h
    simp at h
  · rcases List.eq_nil_or_concat L with h1 | ⟨K, b, hKb⟩
    · rw [hLa, h1] at h
      simp at h
    · have hl : l = K ++ [b, a] := by
        rw [hLa, hKb]
        simp [List.concat_eq_append, List.append_assoc]
      refine ⟨K, b, a, hl, ?_, ?_⟩
      · rw [hl, show K ++ [b, a] = (K ++ [b]) ++ [a] by simp, List.getLast?_concat]
      · rw [hl]
        have hlen2 : (K ++ [b, a]).length - 2 = K.length := by simp
        rw [hlen2, List.getD_eq_getElem?_getD,
          List.getElem?_append_right (le_refl K.length)]
        simp

theorem sorted_two_last (ys : List Str) (b a : Str)
    (h : List.Sorted (fun x y : Str => x ≤ y) (ys ++ [b, a])) :
    (∀ x ∈ ys, x ≤ b) ∧ b ≤ a := by
  obtain ⟨h1, h2, h3⟩ := List.pairwise_append.mp h
  constructor
  · intro x hx
    exact h3 x hx b (List.mem_cons_self b [a])
  · exact (List.pairwise_cons.mp h2).1 a (List.mem_singleton.mpr rfl)

/-- Core behaviour of `_checkpoint_timestamp` over canonical decimal names
whose integer parts are as long as the candidate's (so that Python string
comparison agrees with numeric comparison): the call succeeds, the returned
identifier is canonical, numerically at least the candidate, and strictly
above every existing name. -/
theorem checkpoint_timestamp_dominates (names : List Str) (now : Str)
    (hnow : canonTs now)
    (hnames : ∀ nm ∈ names, canonTs nm ∧ (intP nm).length = (intP now).length) :
    ∃ t, checkpoint_timestamp names now = some t ∧ canonTs t ∧
      decVal now ≤ decVal t ∧ ∀ nm ∈ names, decVal nm < decVal t := by
  have hfilter : names.filter digit_initial = names :=
    List.filter_eq_self.mpr (fun nm h => canonTs_digit_initial (hnames nm h).1)
  have hperm : (sortLex (names.filter digit_initial ++ [now])).Perm
      (names.filter digit_initial ++ [now]) := sortLex_perm _
  have hsorted := sortLex_sorted (names.filter digit_initial ++ [now])
  have hmem : ∀ x, x ∈ sortLex (names.filter digit_initial ++ [now]) ↔
      x ∈ names ++ [now] := by
    intro x
    rw [hperm.mem_iff, hfilter]
  have hcanon : ∀ x ∈ sortLex (names.filter digit_initial ++ [now]),
      canonTs x ∧ (intP x).length = (intP now).length := by
    intro x hx
    rcases List.mem_append.mp ((hmem x).mp hx) with h | h
    · exact hnames x h
    · rw [List.mem_singleton.mp h]
      exact ⟨hnow, rfl⟩
  have hnempty : sortLex (names.filter digit_initial ++ [now]) ≠ [] := by
    intro h0
    have hn := (hmem now).mpr (List.mem_append.mpr (Or.inr (List.mem_singleton.mpr rfl)))
    rw [h0] at hn
    cases hn
  obtain ⟨M, hM⟩ : ∃ M, (sortLex (names.filter digit_initial ++ [now])).getLast? = some M := by
    cases hL : (sortLex (names.filter digit_initial ++ [now])).getLast? with
    | none =>
      exact absurd (by simpa using hL) hnempty
    | some M => exact ⟨M, rfl⟩
  have hgetLastD : (sortLex (names.filter digit_initial ++ [now])).getLastD [] = M := by
    rw [List.getLastD_eq_getLast?, hM]
    rfl
  have hMmem : M ∈ sortLex (names.filter digit_initial ++ [now]) :=
    List.mem_of_getLast?_eq_some hM
  have hMc := hcanon M hMmem
  have hle : ∀ x ∈ names ++ [now], x ≤ M := by
    intro x hx
    exact sorted_le_getLast _ hsorted M hM x ((hmem x).mpr hx)
  have hnowle : now ≤ M := hle now (List.mem_append.mpr (Or.inr (List.mem_singleton.mpr rfl)))
  have hvle : ∀ nm ∈ names, decVal nm ≤ decVal M := by
    intro nm hnm
    exact (canon_le_iff (hnames nm hnm).1 hMc.1
      (by rw [(hnames nm hnm).2, hMc.2])).mp (hle nm (List.mem_append.mpr (Or.inl hnm)))
  have hnowvle : decVal now ≤ decVal M :=
    (canon_le_iff hnow hMc.1 hMc.2.symm).mp hnowle
  have hct0 : checkpoint_timestamp names now =
      (if (sortLex (names.filter digit_initial ++ [now])).getLastD [] ≠ now
       then addScaled ((sortLex (names.filter digit_initial ++ [now])).getLastD []) 100
       else if 1 < (sortLex (names.filter digit_initial ++ [now])).length ∧
           (sortLex (names.filter digit_initial ++ [now])).getD
             ((sortLex (names.filter digit_initial ++ [now])).length - 2) [] = now
         then addScaled now 1
       else some now) := rfl
  rw [hgetLastD] at hct0
  by_cases hMnow : M = now
  · rw [if_neg (not_not_intro hMnow)] at hct0
    by_cases hprev : 1 < (sortLex (names.filter digit_initial ++ [now])).length ∧
        (sortLex (names.filter digit_initial ++ [now])).getD
          ((sortLex (names.filter digit_initial ++ [now])).length - 2) [] = now
    · rw [if_pos hprev] at hct0
      obtain ⟨t, hts, htc, htv⟩ := addScaled_value now 1 hnow
      refine ⟨t, by rw [hct0]; exact hts, htc, ?_, ?_⟩
      · rw [htv]
        norm_num
      · intro nm hnm
        have h1 := hvle nm hnm
        rw [← hMnow] at htv
        rw [htv]
        have : (0:ℚ) < (1:ℚ) / 100 := by norm_num
        linarith
    · rw [if_neg hprev] at hct0
      refine ⟨now, by rw [hct0], hnow, le_refl _, ?_⟩
      intro nm hnm
      have hnm_ne : nm ≠ now := by
        intro heq
        apply hprev
        have hnow_names : now ∈ names := heq ▸ hnm
        have hlen2 : 2 ≤ (sortLex (names.filter digit_initial ++ [now])).length := by
          rw [hperm.length_eq]
          rw [List.length_append, hfilter]
          have : names ≠ [] := by
            intro h0
            rw [h0] at hnow_names
            cases hnow_names
          have : 1 ≤ names.length := by
            cases hns : names with
            | nil => exact absurd hns this
            | cons a l => simp
          simp only [List.length_singleton]
          omega
        obtain ⟨ys, b, a, hdec, hlast, hprev2⟩ :=
          two_last_decomp (sortLex (names.filter digit_initial ++ [now])) hlen2
        have ha : a = M := by
          rw [hlast] at hM
          injection hM
        rw [ha, hMnow] at hdec
        constructor
        · omega
        · rw [hprev2]
          by_contra hbne
          have hfp : ((sortLex (names.filter digit_initial ++ [now])).filter
              (fun y => y = now)).Perm
              ((names.filter digit_initial ++ [now]).filter (fun y => y = now)) :=
            hperm.filter _
          have hrhs : (names.filter digit_initial ++ [now]).filter (fun y => y = now) =
              names.filter (fun y => y = now) ++ [now] := by
            rw [List.filter_append, hfilter]
            simp
          have hlhs : (sortLex (names.filter digit_initial ++ [now])).filter
              (fun y => y = now) = ys.filter (fun y => y = now) ++ [now] := by
            rw [hdec, List.filter_append]
            have : List.filter (fun y => decide (y = now)) [b, now] = [now] := by
              simp [List.filter, hbne]
            rw [this]
          have hnonempty : names.filter (fun y => y = now) ≠ [] := by
            intro h0
            have hmf : now ∈ names.filter (fun y => y = now) :=
              List.mem_filter.mpr (And.intro hnow_names (by simp))
            rw [h0] at hmf
            cases hmf
          have h1len : 1 ≤ (names.filter (fun y => y = now)).length := by
            cases hf : names.filter (fun y => y = now) with
            | nil => exact absurd hf hnonempty
            | cons c cs => simp
          have hleneq := hfp.length_eq
          rw [hlhs, hrhs] at hleneq
          simp only [List.length_append, List.length_singleton] at hleneq
          have hys1 : 1 ≤ (ys.filter (fun y => y = now)).length := by omega
          obtain ⟨y, hy⟩ : ∃ y, y ∈ ys.filter (fun y => y = now) := by
            cases hf : ys.filter (fun y => y = now) with
            | nil =>
              rw [hf] at hys1
              simp at hys1
            | cons c cs => exact ⟨c, List.mem_cons_self c cs⟩
          obtain ⟨hymem, hyval⟩ := List.mem_filter.mp hy
          have hynow : y = now := by simpa using hyval
          have hsorted2 := hsorted
          rw [hdec] at hsorted2
          obtain ⟨hys_le, hb_le⟩ := sorted_two_last ys b now hsorted2
          have : now ≤ b := hynow ▸ hys_le y hymem
          exact hbne (le_antisymm hb_le this)
      exact canon_val_lt_of_ne_le (hnames nm hnm).1 hnow
        (by rw [(hnames nm hnm).2]) hnm_ne
        (hMnow ▸ hle nm (List.mem_append.mpr (Or.inl hnm)))
  · rw [if_pos hMnow] at hct0
    obtain ⟨t, hts, htc, htv⟩ := addScaled_value M 100 hMc.1
    refine ⟨t, by rw [hct0]; exact hts, htc, ?_, ?_⟩
    · rw [htv]
      have : ((100:ℚ)) / 100 = 1 := by norm_num
      linarith
    · intro nm hnm
      have h1 := hvle nm hnm
      rw [htv]
      have : ((100:ℚ)) / 100 = 1 := by norm_num
      linarith

/-- C8: over canonical decimal identifiers whose integer parts are as long as
the candidate's — the regime in which Python string comparison agrees with
numeric comparison — `_checkpoint_timestamp` succeeds, returns a canonical
identifier at least the candidate and strictly greater numerically than every
identifier in the backup root, and (as long as the allocated identifier's
integer part did not grow a digit) a second allocation at the same frozen
clock yields a distinct, strictly larger identifier again.  Unconditionally
the claim is false, because the code sorts the names as strings, not as
numbers — see the counterexample. -/
theorem c8_allocated_id_exceeds_existing (names : List Str) (now : Str)
    (hnow : canonTs now)
    (hnames : ∀ nm ∈ names, canonTs nm ∧ (intP nm).length = (intP now).length) :
    ∃ t, checkpoint_timestamp names now = some t ∧ canonTs t ∧
      decVal now ≤ decVal t ∧ (∀ nm ∈ names, decVal nm < decVal t) ∧
      ((intP t).length = (intP now).length →
        ∃ t2, checkpoint_timestamp (names ++ [t]) now = some t2 ∧
          t2 ≠ t ∧ decVal t < decVal t2) := by
  obtain ⟨t, h1, h2, h3, h4⟩ := checkpoint_timestamp_dominates names now hnow hnames
  refine ⟨t, h1, h2, h3, h4, ?_⟩
  intro hlen
  have hnames2 : ∀ nm ∈ names ++ [t], canonTs nm ∧ (intP nm).length = (intP now).length := by
    intro nm hnm
    rcases List.mem_append.mp hnm with h | h
    · exact hnames nm h
    · rw [List.mem_singleton.mp h]
      exact ⟨h2, hlen⟩
  obtain ⟨t2, g1, g2, g3, g4⟩ := checkpoint_timestamp_dominates (names ++ [t]) now hnow hnames2
  have htlt : decVal t < decVal t2 :=
    g4 t (List.mem_append.mpr (Or.inr (List.mem_singleton.mpr rfl)))
  exact ⟨t2, g1, fun he => absurd (he ▸ htlt) (lt_irrefl _), htlt⟩

theorem c8_allocated_id_exceeds_existing_witness :
    canonTs (("12.5").data) ∧
    (∀ nm ∈ [(("12.3").data)],
      canonTs nm ∧ (intP nm).length = (intP (("12.5").data)).length) ∧
    (∃ t, checkpoint_timestamp [(("12.3").data)] (("12.5").data) = some t ∧ canonTs t ∧
      decVal (("12.5").data) ≤ decVal t ∧
      (∀ nm ∈ [(("12.3").data)], decVal nm < decVal t) ∧
      ((intP t).length = (intP (("12.5").data)).length →
        ∃ t2, checkpoint_timestamp ([(("12.3").data)] ++ [t]) (("12.5").data) = some t2 ∧
          t2 ≠ t ∧ decVal t < decVal t2)) :=
  ⟨by decide, by decide,
    c8_allocated_id_exceeds_existing [(("12.3").data)] (("12.5").data) (by decide) (by decide)⟩

/-- The original C8 is refuted: with `10.5` already in the backup root and
the clock moved backward to `9.0`, the lexicographic sort makes `9.0` the
maximum of the listing, so no bump happens and the allocated identifier is
numerically smaller than the existing one. -/
theorem c8_counterexample :
    checkpoint_timestamp [(("10.5").data)] (("9.0").data) = some (("9.0").data) ∧
    decVal (("9.0").data) < decVal (("10.5").data) := by
  constructor
  · decide
  · rw [decVal_of_splitFrac
      (show splitFrac (("9.0").data) = some ((("9").data), (("0").data)) from rfl)]
    rw [decVal_of_splitFrac
      (show splitFrac (("10.5").data) = some ((("10").data), (("5").data)) from rfl)]
    have h9 : digitVal ('9') = 9 := by decide
    have h1 : digitVal ('1') = 1 := by decide
    have h0 : digitVal ('0') = 0 := by decide
    have h5 : digitVal ('5') = 5 := by decide
    norm_num [fracVal, digitsToNat, h9, h1, h0, h5]

/-- C9: over canonical identifiers with equally long integer parts and no
duplicate names, the lexicographic sort used by `rollback_checkpoints` is
numerically strictly increasing, and the first name popped (the head of the
reversed sorted listing) is a backup-root name of maximal numeric value.
Unconditionally the claim is false: the allocator itself can populate the
root with `9.0` then `10.0`, which string sort orders numerically backwards —
see the counterexample. -/
theorem c9_lex_sort_is_numeric_sort (st : RState) (L : Nat)
    (hnames : ∀ nm ∈ st.backups.map Prod.fst, canonTs nm ∧ (intP nm).length = L)
    (hnd : (st.backups.map Prod.fst).Nodup) :
    List.Sorted (fun a b : Str => decVal a < decVal b) (sortLex (st.backups.map Prod.fst)) ∧
    ∀ M, (rollback_pop_order st).head? = some M →
      M ∈ st.backups.map Prod.fst ∧
      ∀ x ∈ st.backups.map Prod.fst, decVal x ≤ decVal M := by
  have hsorted := sortLex_sorted (st.backups.map Prod.fst)
  have hperm := sortLex_perm (st.backups.map Prod.fst)
  have hnd2 : (sortLex (st.backups.map Prod.fst)).Nodup := hperm.nodup_iff.mpr hnd
  constructor
  · have hpw : List.Pairwise (fun a b : Str => a ≤ b ∧ a ≠ b)
        (sortLex (st.backups.map Prod.fst)) := hsorted.and hnd2
    refine List.Pairwise.imp_of_mem ?_ hpw
    intro a b ha hb hab
    have hca := hnames a (hperm.mem_iff.mp ha)
    have hcb := hnames b (hperm.mem_iff.mp hb)
    exact canon_val_lt_of_ne_le hca.1 hcb.1 (by rw [hca.2, hcb.2]) hab.2 hab.1
  · intro M hM
    have hM2 : (sortLex (st.backups.map Prod.fst)).getLast? = some M := by
      have hh : (rollback_pop_order st).head? =
          (sortLex (st.backups.map Prod.fst)).getLast? := by
        unfold rollback_pop_order
        exact List.head?_reverse _
      rw [hh] at hM
      exact hM
    have hMmem : M ∈ st.backups.map Prod.fst :=
      hperm.mem_iff.mp (List.mem_of_getLast?_eq_some hM2)
    refine ⟨hMmem, ?_⟩
    intro x hx
    have hxle : x ≤ M := sorted_le_getLast _ hsorted M hM2 x (hperm.mem_iff.mpr hx)
    exact (canon_le_iff (hnames x hx).1 (hnames M hMmem).1
      (by rw [(hnames x hx).2, (hnames M hMmem).2])).mp hxle

theorem c9_lex_sort_is_numeric_sort_witness :
    (∀ nm ∈ stPair.backups.map Prod.fst, canonTs nm ∧ (intP nm).length = 1) ∧
    (stPair.backups.map Prod.fst).Nodup ∧
    (List.Sorted (fun a b : Str => decVal a < decVal b) (sortLex (stPair.backups.map Prod.fst)) ∧
      ∀ M, (rollback_pop_order stPair).head? = some M →
        M ∈ stPair.backups.map Prod.fst ∧
        ∀ x ∈ stPair.backups.map Prod.fst, decVal x ≤ decVal M) :=
  ⟨by decide, by decide, c9_lex_sort_is_numeric_sort stPair 1 (by decide) (by decide)⟩

/-- The original C9 is refuted on names the allocator itself produces: an
empty root and candidate `9.0` allocates `9.0`; then candidate `10.5`
allocates `10.0` (the string sort puts `9.0` last, so the code "bumps" the
numerically larger candidate down to `9.0 + 1`).  On the resulting root the
string sort is numerically decreasing, and `rollback_checkpoints` pops the
numerically oldest checkpoint `9.0` first. -/
theorem c9_counterexample :
    checkpoint_timestamp [] (("9.0").data) = some (("9.0").data) ∧
    checkpoint_timestamp [(("9.0").data)] (("10.5").data) = some (("10.0").data) ∧
    rollback_pop_order stNineTen = [(("9.0").data), (("10.0").data)] ∧
    decVal (("9.0").data) < decVal (("10.0").data) := by
  refine ⟨by decide, by decide, by decide, ?_⟩
  rw [decVal_of_splitFrac
    (show splitFrac (("9.0").data) = some ((("9").data), (("0").data)) from rfl)]
  rw [decVal_of_splitFrac
    (show splitFrac (("10.0").data) = some ((("10").data), (("0").data)) from rfl)]
  have h9 : digitVal ('9') = 9 := by decide
  have h1 : digitVal ('1') = 1 := by decide
  have h0 : digitVal ('0') = 0 := by decide
  norm_num [fracVal, digitsToNat, h9, h1, h0]

end Reverter